import Mathlib

/-!
# tk-rnaseq: lenpick and smr

A shallow embedding of the two programs of the repository.

* `lenpick.cpp`: the length-distribution scan loop, the peak selection loop and
  the final `std::min_element`.
* `smr.cpp`: `ReadTally::ReadTally` (the `fgets` / `strtok` / `atoi` loop) and
  `ReadTallyMatrix::print`.

Conventions.

* A C or C++ string is a `List Char`; a character stands for one byte.
* `unsigned` is a natural number below `2 ^ 32`; every `unsigned` addition and
  every conversion to `unsigned` is written with an explicit `% UINT_MOD`.
* `std::unordered_map<K, unsigned>` is an association list with distinct keys
  (`UMap K`).  The list order is the order of first insertion; the order in
  which the container is iterated is not fixed by C++, so every loop over a
  container takes the iteration order as an argument (`order`), and the
  theorems quantify over all orders that are permutations of the entries.
* Undefined behaviour (dereferencing an end iterator, passing a null pointer to
  `atoi` or to the `std::string` constructor, an `atoi` result that does not
  fit `int`) is an explicit `Except.error`.
* An input file of `lenpick` is the list of the lines that `std::getline`
  returns; an input file of `smr` is the list of its characters, from which
  `fgets` cuts the buffers.  The `fgets` loop is bounded by a number of calls
  (`readLoop`); `readTally` supplies one call more than the file has characters,
  which always reaches the end of the file (`readLoop_unlines`).
* The command line of `smr` is the list of the results of `getopt` (option
  character and argument).  File handles and the lifetime of the `ReadTally`
  objects (`fopen`, `fclose`, copies and destructors) are outside the embedding.
-/

namespace TkRnaseq

/-! ## Machine integers and containers -/

/-- The number of values of the 32-bit type `unsigned`. -/
def UINT_MOD : Nat := 4294967296

/-- Ways in which the C++ code leaves defined behaviour. -/
inductive Fault where
  /-- An end iterator is dereferenced (`lengthpeak->first`, `*minpeak`). -/
  | derefEnd
  /-- A null `strtok` result is passed to `atoi` or to `std::string`. -/
  | nullToken
  /-- The value read by `atoi` is not representable as `int`. -/
  | atoiRange
  deriving DecidableEq, Repr

/-- A `std::unordered_map<K, unsigned>`: entries with distinct keys, listed in
order of first insertion. -/
abbrev UMap (K : Type) := List (K × Nat)

/-- The keys of a map are pairwise distinct (the container invariant). -/
def UMap.WF {K : Type} (m : UMap K) : Prop := (m.map Prod.fst).Nodup

/-- Member function `find`: `none` is the end iterator, `some v` an iterator to the
entry whose `second` is `v`. -/
def UMap.find {K : Type} [DecidableEq K] : UMap K → K → Option Nat
  | [], _ => none
  | (k', v) :: m, k => if k' = k then some v else UMap.find m k

/-- Member function `emplace(k, v)`: inserts unless the key is already present. -/
def UMap.emplace {K : Type} [DecidableEq K] (m : UMap K) (k : K) (v : Nat) : UMap K :=
  match UMap.find m k with
  | none => m ++ [(k, v)]
  | some _ => m

/-- The statement `kvpair->second += 1` on the entry of key `k`, in `unsigned`
arithmetic. -/
def UMap.incr {K : Type} [DecidableEq K] : UMap K → K → UMap K
  | [], _ => []
  | (k', v) :: m, k =>
    if k' = k then (k', (v + 1) % UINT_MOD) :: m else (k', v) :: UMap.incr m k

/-- The find / emplace / increment block shared by both programs
(`lenpick.cpp` lines 68-72, `smr.cpp` lines 165-169). -/
def tallyKey {K : Type} [DecidableEq K] (m : UMap K) (k : K) : UMap K :=
  match UMap.find m k with
  | none => UMap.emplace m k 1
  | some _ => UMap.incr m k

/-! ## lenpick -/

/-- The `while (std::getline(instream, buffer))` loop of `lenpick.cpp`
(lines 62-74).  The first argument is the remaining lines of the stream, `count`
is the `unsigned` line counter and `lendist` the map built so far. -/
def scanLines : List (List Char) → Nat → UMap Nat → UMap Nat
  | [], _, lendist => lendist
  | buffer :: rest, count, lendist =>
    scanLines rest ((count + 1) % UINT_MOD)
      (if count % 4 = 1 then tallyKey lendist (buffer.length % UINT_MOD) else lendist)

/-- The length distribution of one file: the scan loop started with `count = 0`
and an empty map. -/
def lendistOf (lines : List (List Char)) : UMap Nat := scanLines lines 0 []

/-- The peak selection loop (`lenpick.cpp` lines 77-82) over the entries in
iteration order.  `lengthpeak = none` is `lendist.end()`. -/
def peakLoop : List (Nat × Nat) → Option (Nat × Nat) → Option (Nat × Nat)
  | [], lengthpeak => lengthpeak
  | iter :: rest, lengthpeak =>
    match lengthpeak with
    | none => peakLoop rest (some iter)
    | some p => if iter.2 > p.2 then peakLoop rest (some iter) else peakLoop rest (some p)

/-- The iterator `lengthpeak` after the loop, started from `lendist.end()`. -/
def selectPeak (entries : List (Nat × Nat)) : Option (Nat × Nat) := peakLoop entries none

/-- One turn of the per-file loop, up to `lengthpeak->first` (lines 58-83):
the value pushed onto `peaks`, or the fault of dereferencing `lendist.end()`. -/
def filePeak (order : UMap Nat → List (Nat × Nat)) (lines : List (List Char)) :
    Except Fault Nat :=
  match selectPeak (order (lendistOf lines)) with
  | none => Except.error Fault.derefEnd
  | some p => Except.ok p.1

/-- The per-file loop (lines 55-88): `peaks` is the vector built so far. -/
def collectPeaks (order : UMap Nat → List (Nat × Nat)) :
    List (List (List Char)) → List Nat → Except Fault (List Nat)
  | [], peaks => Except.ok peaks
  | f :: fs, peaks =>
    match filePeak order f with
    | Except.error e => Except.error e
    | Except.ok p => collectPeaks order fs (peaks ++ [p])

/-- The scan of `std::min_element`: `smallest` is the value under the running
iterator, replaced only by a strictly smaller element. -/
def minScan : List Nat → Nat → Nat
  | [], smallest => smallest
  | x :: xs, smallest => if x < smallest then minScan xs x else minScan xs smallest

/-- The call `std::min_element(begin, end)`: `none` is the end iterator. -/
def minElement : List Nat → Option Nat
  | [] => none
  | x :: xs => some (minScan xs x)

/-- What `lenpick` writes to standard output. -/
inductive LenpickOutput where
  /-- The usage line (no argument given). -/
  | usage
  /-- The line `printf("%u\n", *minpeak)`. -/
  | minpeak (n : Nat)
  deriving DecidableEq, Repr

/-- The function `main` of `lenpick.cpp` on the contents of the files named on the
command line (each file a list of lines), without the `-h` branch and without the
diagnostics written to the error stream. -/
def lenpickMain (order : UMap Nat → List (Nat × Nat)) (files : List (List (List Char))) :
    Except Fault LenpickOutput :=
  match files with
  | [] => Except.ok LenpickOutput.usage
  | _ :: _ =>
    match collectPeaks order files [] with
    | Except.error e => Except.error e
    | Except.ok peaks =>
      match minElement peaks with
      | none => Except.error Fault.derefEnd
      | some m => Except.ok (LenpickOutput.minpeak m)

/-- An iteration order is admissible when it lists exactly the entries of the
map, each once. -/
def IterOrder {K : Type} (order : UMap K → List (K × Nat)) : Prop := ∀ m, (order m).Perm m

/-- The number of 0-based line indices `i` with `i % 4 = 1` whose line has
exactly `L` characters. -/
def classCount (lines : List (List Char)) (L : Nat) : Nat :=
  (lines.enum.filter (fun p => decide (p.1 % 4 = 1) && decide (p.2.length = L))).length

/-- A file whose classification lines have the given lengths: every record is
the four lines header, sequence, separator, quality. -/
def fastqOfLengths : List Nat → List (List Char)
  | [] => []
  | n :: ns =>
    ['@'] :: List.replicate n 'A' :: ['+'] :: List.replicate n 'I' :: fastqOfLengths ns

/-! ## smr: the C library functions used by `ReadTally::ReadTally` -/

/-- The constant `MAX_LINE_LENGTH` of `smr.cpp` (line 136). -/
def MAX_LINE_LENGTH : Nat := 2048

/-- The terminating byte of a C string. -/
def NUL : Char := Char.ofNat 0

/-- The C string held by a character array: the bytes before the first NUL. -/
def cString (bytes : List Char) : List Char := bytes.takeWhile (fun c => c ≠ NUL)

/-- The reading done by one `fgets` call with room for `room` more characters:
it stops after a newline, at the end of the stream, or when the room is used up.
Returns the characters stored and the rest of the stream. -/
def fgetsChars : Nat → List Char → List Char × List Char
  | 0, s => ([], s)
  | _ + 1, [] => ([], [])
  | room + 1, c :: s =>
    if c = '\n' then ([c], s)
    else (c :: (fgetsChars room s).1, (fgetsChars room s).2)

/-- The call `fgets(buffer, size, instream)`: `none` is the null pointer returned
at end of file, otherwise the characters stored in the buffer (at most
`size - 1`) and the rest of the stream. -/
def fgets (size : Nat) (stream : List Char) : Option (List Char × List Char) :=
  match stream with
  | [] => none
  | _ :: _ => some (fgetsChars (size - 1) stream)

/-- The delimiter set `"\t\n"` passed to `strtok`. -/
def isDelim (c : Char) : Bool := c = '\t' || c = '\n'

/-- One `strtok` call with the delimiters `"\t\n"` on the C string `s` (the
argument of the first call, the saved position of a later call): the token, or
`none` for a null pointer, and the saved position for the next call.  Leading
delimiters are skipped; the token ends before the next delimiter, which is
overwritten and stepped over. -/
def strtok (s : List Char) : Option (List Char) × List Char :=
  match s.dropWhile isDelim with
  | [] => (none, [])
  | c :: cs =>
    (some ((c :: cs).takeWhile (fun x => !isDelim x)),
      ((c :: cs).dropWhile (fun x => !isDelim x)).tail)

/-- The predicate `isspace` of the C locale. -/
def isSpace (c : Char) : Bool :=
  c = ' ' || c = '\t' || c = '\n' || c = Char.ofNat 11 || c = Char.ofNat 12 || c = '\r'

/-- The value of the leading decimal digits of a string, continuing from `acc`. -/
def digitsValue : List Char → Nat → Nat
  | [], acc => acc
  | c :: cs, acc => if c.isDigit then digitsValue cs (acc * 10 + (c.toNat - 48)) else acc

/-- The sign and digit part of `atoi`, after the leading white space. -/
def signedValue : List Char → Int
  | '-' :: cs => - (digitsValue cs 0 : Int)
  | '+' :: cs => (digitsValue cs 0 : Int)
  | cs => (digitsValue cs 0 : Int)

/-- The call `atoi(tok)` on a non-null C string: white space, an optional sign,
decimal digits.  A value outside the range of `int` is undefined behaviour. -/
def atoi (s : List Char) : Except Fault Int :=
  if -2147483648 ≤ signedValue (s.dropWhile isSpace) ∧
      signedValue (s.dropWhile isSpace) ≤ 2147483647 then
    Except.ok (signedValue (s.dropWhile isSpace))
  else Except.error Fault.atoiRange

/-- The expression `bflag & mask` on a 32-bit two's complement `int`. -/
def bitAnd (bflag : Int) (mask : Nat) : Nat := (bflag % 4294967296).toNat &&& mask

/-! ## smr: `ReadTally` -/

/-- The body of the `while (fgets ...)` loop of `ReadTally::ReadTally`
(`smr.cpp` lines 153-169) on the characters `buffer` stored by `fgets`. -/
def processBuffer (buffer : List Char) (tally : UMap (List Char)) :
    Except Fault (UMap (List Char)) :=
  if buffer.head? = some '@' then Except.ok tally
  else
    match (strtok (strtok (cString buffer)).2).1 with
    | none => Except.error Fault.nullToken
    | some tok =>
      match atoi tok with
      | Except.error e => Except.error e
      | Except.ok bflag =>
        if bitAnd bflag 4 ≠ 0 then Except.ok tally
        else
          match (strtok (strtok (strtok (cString buffer)).2).2).1 with
          | none => Except.error Fault.nullToken
          | some molid => Except.ok (tallyKey tally molid)

/-- The `while (fgets(buffer, MAX_LINE_LENGTH, instream) != NULL)` loop
(lines 151-170).  The first argument bounds the number of `fgets` calls; `none`
means the bound was reached before the end of the stream. -/
def readLoop : Nat → List Char → UMap (List Char) → Option (Except Fault (UMap (List Char)))
  | 0, _, _ => none
  | fuel + 1, stream, tally =>
    match fgets MAX_LINE_LENGTH stream with
    | none => some (Except.ok tally)
    | some (buffer, rest) =>
      match processBuffer buffer tally with
      | Except.error e => some (Except.error e)
      | Except.ok tally' => readLoop fuel rest tally'

/-- The constructor `ReadTally::ReadTally` on the contents of an opened file.
Every `fgets` call that returns a buffer consumes at least one character, so
one more call than the stream has characters reaches the end of the file. -/
def readTally (stream : List Char) : Option (Except Fault (UMap (List Char))) :=
  readLoop (stream.length + 1) stream []

/-! ## smr: `ReadTallyMatrix::print` -/

/-- Member function `emplace` of `std::unordered_set<std::string>`; the set is the
list of its distinct elements in order of first insertion. -/
def setEmplace (molids : List (List Char)) (molid : List Char) : List (List Char) :=
  if molid ∈ molids then molids else molids ++ [molid]

/-- The first loop of `print` (lines 197-201): every key of every tally is
emplaced into `molids`; `mapOrder` is the iteration order of the maps. -/
def collectMolids (mapOrder : UMap (List Char) → List (List Char × Nat)) :
    List (UMap (List Char)) → List (List Char) → List (List Char)
  | [], molids => molids
  | readTally :: rest, molids =>
    collectMolids mapOrder rest
      ((mapOrder readTally).foldl (fun acc kvpair => setEmplace acc kvpair.1) molids)

/-- The conversion `%u` of `fprintf`. -/
def formatUnsigned (n : Nat) : List Char := Nat.toDigits 10 n

/-- The inner loop of `print` (lines 208-220) for one `molid`: the characters
written for the remaining tallies, `printdelim` being the flag of the source. -/
def printCounts (delim : Char) (molid : List Char) :
    List (UMap (List Char)) → Bool → List Char
  | [], _ => []
  | readTally :: rest, printdelim =>
    (if printdelim then [delim] else []) ++
      (match UMap.find readTally molid with
        | none => ['0']
        | some count => formatUnsigned count) ++
      printCounts delim molid rest true

/-- One turn of the outer loop of `print` (lines 205-221): the line written for
`molid`.  The conversion `%s` writes the C string `molid.c_str()`. -/
def printRow (delim : Char) (tallies : List (UMap (List Char))) (molid : List Char) :
    List Char :=
  cString molid ++ [delim] ++ printCounts delim molid tallies false ++ ['\n']

/-- The function `ReadTallyMatrix::print`: all characters written to `outstream`.
The arguments `mapOrder` and `setOrder` are the iteration orders of the maps and
of the set `molids`. -/
def print (mapOrder : UMap (List Char) → List (List Char × Nat))
    (setOrder : List (List Char) → List (List Char))
    (tallies : List (UMap (List Char))) (delim : Char) : List Char :=
  ((setOrder (collectMolids mapOrder tallies [])).map (printRow delim tallies)).flatten

/-! ## Vocabulary of the specification -/

/-- The contents of a text file with the given lines, each ended by a newline. -/
def unlines : List (List Char) → List Char
  | [] => []
  | l :: ls => l ++ '\n' :: unlines ls

/-- The fields of a line: the pieces between its tab characters. -/
def splitTabs : List Char → List (List Char)
  | [] => [[]]
  | c :: cs =>
    if c = '\t' then [] :: splitTabs cs
    else
      match splitTabs cs with
      | [] => [[c]]
      | f :: fs => (c :: f) :: fs

/-- A line that `fgets` reads whole: it has no newline inside, and the line and
its newline fit the `MAX_LINE_LENGTH - 1` characters that one call stores. -/
def FitsBuffer (l : List Char) : Bool :=
  decide (l.length + 1 < MAX_LINE_LENGTH) && l.all (fun c => c ≠ '\n')

/-- One record per line: the loop body of `ReadTally::ReadTally` applied once to
every line (with its newline), in order. -/
def perLine : List (List Char) → UMap (List Char) → Except Fault (UMap (List Char))
  | [], tally => Except.ok tally
  | l :: ls, tally =>
    match processBuffer (l ++ ['\n']) tally with
    | Except.error e => Except.error e
    | Except.ok tally' => perLine ls tally'

/-- The molecule counted for a line according to the specification: none for a
header line, otherwise field 2 when field 1, read as an integer, has bit `0x4`
clear. -/
def recordKey (l : List Char) : Option (List Char) :=
  if l.head? = some '@' then none
  else
    match splitTabs l with
    | _ :: flag :: molid :: _ =>
      match atoi flag with
      | Except.ok bflag => if bitAnd bflag 4 = 0 then some molid else none
      | Except.error _ => none
    | _ => none

/-- The number of lines whose record key is `k`. -/
def recordCount (lines : List (List Char)) (k : List Char) : Nat :=
  (lines.filter (fun l => decide (recordKey l = some k))).length

/-- A field that `strtok` returns unchanged: not empty and without a NUL. -/
def PlainField (f : List Char) : Bool := !f.isEmpty && f.all (fun c => c ≠ NUL)

/-- A record as the code expects it: at least three tab-separated fields, the
first three non-empty and free of NUL, the second one an integer in the range
of `int`. -/
def WellFormedRecord (l : List Char) : Bool :=
  match splitTabs l with
  | name :: flag :: molid :: _ =>
    PlainField name && PlainField flag && PlainField molid &&
      (match atoi flag with
        | Except.ok _ => true
        | Except.error _ => false)
  | _ => false

/-- Equality of results is decidable, so that closed examples can be evaluated. -/
instance instDecidableEqExcept {ε α : Type} [DecidableEq ε] [DecidableEq α] :
    DecidableEq (Except ε α)
  | Except.ok a, Except.ok b =>
    if h : a = b then isTrue (by rw [h]) else isFalse (fun e => h (by injection e))
  | Except.error a, Except.error b =>
    if h : a = b then isTrue (by rw [h]) else isFalse (fun e => h (by injection e))
  | Except.ok _, Except.error _ => isFalse (fun e => by injection e)
  | Except.error _, Except.ok _ => isFalse (fun e => by injection e)

/-! ## Definitions used to state the theorems -/

/-- The count stored for a key after `n` further observations of it, starting
from the lookup result `o`. -/
def bump : Option Nat → Nat → Option Nat
  | o, 0 => o
  | none, n + 1 => bump (some 1) n
  | some v, n + 1 => bump (some ((v + 1) % UINT_MOD)) n

/-- The keys tallied by the scan loop when the first line has index `i`. -/
def classKeys : Nat → List (List Char) → List Nat
  | _, [] => []
  | i, l :: ls =>
    if i % 4 = 1 then (l.length % UINT_MOD) :: classKeys (i + 1) ls else classKeys (i + 1) ls

/-- The map after one line whose record key is `key`. -/
def applyKey (tally : UMap (List Char)) : Option (List Char) → UMap (List Char)
  | none => tally
  | some k => tallyKey tally k

/-- The three alignment lines of scenario C. -/
def scenarioC : List (List Char) :=
  ["read1\t0\tchrA\t100".toList, "read2\t4\tchrB\t200".toList, "read3\t0\tchrA\t300".toList]

/-- Fields joined by single delimiter characters, with no trailing delimiter. -/
def joinWith (delim : Char) : List (List Char) → List Char
  | [] => []
  | [f] => f
  | f :: g :: rest => f ++ delim :: joinWith delim (g :: rest)

/-- A table line as the specification describes it: the key, the delimiter, the
count fields in decimal joined by the delimiter, and a newline. -/
def tableRow (delim : Char) (key : List Char) (counts : List Nat) : List Char :=
  key ++ [delim] ++ joinWith delim (counts.map formatUnsigned) ++ ['\n']

/-- The count of `key` in a tally, `0` when the key is absent. -/
def countOrZero (key : List Char) (tally : UMap (List Char)) : Nat :=
  (UMap.find tally key).getD 0

/-- The keys of a tally are C strings: they hold no NUL. -/
def CStringKeys (tally : UMap (List Char)) : Bool :=
  tally.all (fun e => e.1.all (fun c => c ≠ NUL))

/-- The two tallies of scenario D. -/
def scenarioD : List (UMap (List Char)) :=
  [[("chrA".toList, 2), ("chrB".toList, 1)], [("chrB".toList, 3), ("chrC".toList, 1)]]

/-! ## Definitions for the option loop and the later theorems -/

/-- The members of `SmrOptions` that the option loop sets, with the number of
delimiter warnings and of unknown-option errors written to the error stream. -/
structure OptionState where
  /-- Member `delim`. -/
  delim : Char
  /-- Member `outfile`. -/
  outfile : List Char
  /-- Number of `warning: string ... provided for delimiter` lines written. -/
  warnings : Nat
  /-- Number of `error: unknown option` lines written. -/
  errors : Nat
  deriving DecidableEq

/-- The state before the loop (`smr.cpp` lines 52-53): the delimiter is a comma. -/
def initialOptions : OptionState := OptionState.mk ',' "stdout".toList 0 0

/-- The string `arg` of `case 'd'` (lines 62-64): the argument itself, or a tab
when the argument is the two characters backslash and `t`. -/
def delimArg (optarg : List Char) : List Char :=
  if optarg = ['\\', 't'] then ['\t'] else optarg

/-- Whether `case 'd'` writes its warning (lines 65-69). -/
def delimWarning (optarg : List Char) : Bool :=
  if optarg = ['\\', 't'] then false else decide (optarg.length > 1)

/-- The expression `arg[0]` on a C string: its first character, the terminating
NUL when the string is empty. -/
def firstChar (arg : List Char) : Char := arg.headD NUL

/-- The `while ((opt = getopt(...)) != -1)` loop of `SmrOptions::SmrOptions`
(lines 57-84) over the successive results of `getopt` (option character and
`optarg`).  The result `none` is the `exit(0)` of `case 'h'`. -/
def optionLoop : List (Char × List Char) → OptionState → Option OptionState
  | [], st => some st
  | (opt, optarg) :: rest, st =>
    if opt = 'd' then
      optionLoop rest
        (OptionState.mk (firstChar (delimArg optarg)) st.outfile
          (st.warnings + (if delimWarning optarg then 1 else 0)) st.errors)
    else if opt = 'h' then none
    else if opt = 'o' then
      optionLoop rest (OptionState.mk st.delim optarg st.warnings st.errors)
    else optionLoop rest (OptionState.mk st.delim st.outfile st.warnings (st.errors + 1))

/-- The sum of all counts of a map. -/
def totalCount {K : Type} (m : UMap K) : Nat := (m.map Prod.snd).sum

/-- The lines of a text: the pieces ended by a newline, and the unterminated
piece after the last newline if it is not empty. -/
def linesOf : List Char → List (List Char)
  | [] => []
  | c :: cs =>
    if c = '\n' then [] :: linesOf cs
    else
      match linesOf cs with
      | [] => [[c]]
      | l :: ls => (c :: l) :: ls

/-- A file has a unique most frequent length `L` that `unsigned` arithmetic
represents: classification lines are shorter than `2 ^ 32` characters, and `L`
occurs on fewer than `2 ^ 32` of them and strictly more often than any other
length. -/
def UniqueMode (lines : List (List Char)) (L : Nat) : Prop :=
  (∀ p ∈ lines.enum, p.1 % 4 = 1 → p.2.length < UINT_MOD) ∧
    classCount lines L < UINT_MOD ∧
    ∀ L', L' ≠ L → classCount lines L' < classCount lines L

/-- The non-empty tab-separated fields of a line. -/
def nonEmptyFields (l : List Char) : List (List Char) :=
  (splitTabs l).filter (fun f => !f.isEmpty)

/-- The flag of a record, its second non-empty field, is an integer in the range
of `int`. -/
def FlagInRange (l : List Char) : Bool :=
  match nonEmptyFields l with
  | _ :: flag :: _ =>
    (match atoi flag with
      | Except.ok _ => true
      | Except.error _ => false)
  | _ => false

/-- The pieces of a C string between its delimiter characters (tab, newline). -/
def splitDelims : List Char → List (List Char)
  | [] => [[]]
  | c :: cs =>
    if isDelim c then [] :: splitDelims cs
    else
      match splitDelims cs with
      | [] => [[c]]
      | f :: fs => (c :: f) :: fs

/-- The tokens of a C string: its non-empty pieces between delimiters. -/
def tokensOf (s : List Char) : List (List Char) :=
  (splitDelims s).filter (fun f => !f.isEmpty)

/-- A header line and two alignment lines, one with an empty field between the
read name and the flag. -/
def threeFieldLines : List (List Char) :=
  ["@HD\tVN:1.0".toList, "read1\t\t0\tchrA".toList, "read2\t16\tchrB\t7".toList]

/-- The shape of a key stored by `ReadTally`: a non-empty C string without tab
and without newline. -/
def KeyShape (k : List Char) : Bool :=
  !k.isEmpty && k.all (fun c => c ≠ '\t' && c ≠ '\n' && c ≠ NUL)

/-- The text of a table row before its newline. -/
def rowBody (delim : Char) (tallies : List (UMap (List Char))) (key : List Char) : List Char :=
  key ++ [delim] ++ joinWith delim (tallies.map (fun t => formatUnsigned (countOrZero key t)))

/-- Two alignment files and the tallies that the constructor builds from them. -/
def twoSamFiles : List (List Char) :=
  [unlines scenarioC, "r\t0\tchrB\nq\t16\tchrA\n".toList]

/-- The tallies of `twoSamFiles`. -/
def twoSamTallies : List (UMap (List Char)) :=
  [[("chrA".toList, 2)], [("chrB".toList, 1), ("chrA".toList, 1)]]

/-! ## Theorems -/

variable {K : Type} [DecidableEq K]

theorem find_append_single (m : UMap K) (k k' : K) (v : Nat) :
    UMap.find (m ++ [(k, v)]) k' =
      match UMap.find m k' with
      | some w => some w
      | none => if k = k' then some v else none := by
  induction m with
  | nil => simp [UMap.find]
  | cons e m ih =>
    obtain ⟨a, b⟩ := e
    by_cases h : a = k'
    · simp [UMap.find, h]
    · simp [UMap.find, h, ih]

theorem find_incr (m : UMap K) (k k' : K) :
    UMap.find (UMap.incr m k) k' =
      if k = k' then (UMap.find m k).map (fun v => (v + 1) % UINT_MOD) else UMap.find m k' := by
  induction m with
  | nil => simp [UMap.find, UMap.incr]
  | cons e m ih =>
    obtain ⟨a, b⟩ := e
    by_cases h : a = k
    · subst h
      by_cases h2 : a = k'
      · simp [UMap.find, UMap.incr, h2]
      · simp [UMap.find, UMap.incr, h2]
    · by_cases h2 : a = k'
      · subst h2
        have h3 : ¬ k = a := fun e => h e.symm
        simp [UMap.find, UMap.incr, h, h3]
      · simp [UMap.find, UMap.incr, h, h2, ih]

theorem find_tallyKey (m : UMap K) (k k' : K) :
    UMap.find (tallyKey m k) k' =
      if k = k' then bump (UMap.find m k) 1 else UMap.find m k' := by
  unfold tallyKey
  cases hf : UMap.find m k with
  | none =>
    simp only [UMap.emplace, hf, find_append_single]
    by_cases h : k = k'
    · subst h; simp [hf, bump]
    · simp [h]; cases UMap.find m k' <;> rfl
  | some v =>
    simp only [find_incr, hf]
    by_cases h : k = k'
    · simp [h, bump]
    · simp [h]

theorem bump_bump (o : Option Nat) (a b : Nat) : bump (bump o a) b = bump o (a + b) := by
  induction a generalizing o with
  | zero => simp [bump]
  | succ a ih =>
    have : a + 1 + b = (a + b) + 1 := by omega
    cases o with
    | none => rw [this]; simp only [bump]; exact ih _
    | some v => rw [this]; simp only [bump]; exact ih _

theorem find_foldl_tallyKey (ks : List K) (m : UMap K) (k : K) :
    UMap.find (ks.foldl tallyKey m) k = bump (UMap.find m k) (ks.count k) := by
  induction ks generalizing m with
  | nil => simp [bump]
  | cons a ks ih =>
    rw [List.foldl_cons, ih, find_tallyKey]
    by_cases h : a = k
    · subst h
      simp only [if_true, List.count_cons_self, bump_bump]
      congr 1; omega
    · have h2 : ¬ (a == k) = true := by simpa using h
      simp [h, List.count_cons, h2]

theorem bump_some (v n : Nat) (hv : v < UINT_MOD) :
    bump (some v) n = some ((v + n) % UINT_MOD) := by
  induction n generalizing v with
  | zero => simp [bump, Nat.mod_eq_of_lt hv]
  | succ n ih =>
    simp only [bump]
    rw [ih _ (Nat.mod_lt _ (by decide))]
    congr 1
    rw [Nat.add_mod, Nat.mod_mod, ← Nat.add_mod]
    congr 1; omega

theorem bump_none (n : Nat) :
    bump none n = if n = 0 then none else some (n % UINT_MOD) := by
  cases n with
  | zero => simp [bump]
  | succ n =>
    simp only [bump]
    rw [bump_some 1 n (by decide)]
    simp; congr 1; omega

theorem uint_mod_mod_four (i : Nat) : i % UINT_MOD % 4 = i % 4 := by
  unfold UINT_MOD; omega

theorem uint_succ_mod (i : Nat) : (i % UINT_MOD + 1) % UINT_MOD = (i + 1) % UINT_MOD := by
  unfold UINT_MOD; omega

theorem scanLines_eq_foldl (lines : List (List Char)) (i : Nat) (m : UMap Nat) :
    scanLines lines (i % UINT_MOD) m = (classKeys i lines).foldl tallyKey m := by
  induction lines generalizing i m with
  | nil => rfl
  | cons l ls ih =>
    simp only [scanLines, classKeys, uint_mod_mod_four, uint_succ_mod]
    rw [ih]
    by_cases h : i % 4 = 1
    · simp [h]
    · simp [h]

theorem lendistOf_eq_foldl (lines : List (List Char)) :
    lendistOf lines = (classKeys 0 lines).foldl tallyKey [] :=
  scanLines_eq_foldl lines 0 []

theorem count_classKeys (lines : List (List Char)) (i L : Nat)
    (hlen : ∀ p ∈ lines.enumFrom i, p.1 % 4 = 1 → p.2.length < UINT_MOD) :
    (classKeys i lines).count L =
      ((lines.enumFrom i).filter
        (fun p => decide (p.1 % 4 = 1) && decide (p.2.length = L))).length := by
  induction lines generalizing i with
  | nil => rfl
  | cons l ls ih =>
    have ih2 := ih (i + 1) (fun p hp => hlen p (by
      rw [List.enumFrom_cons]; exact List.mem_cons_of_mem _ hp))
    simp only [classKeys, List.enumFrom_cons]
    by_cases h : i % 4 = 1
    · have hl : l.length < UINT_MOD :=
        hlen (i, l) (by rw [List.enumFrom_cons]; exact List.mem_cons_self _ _) h
      by_cases h2 : l.length = L
      · subst h2
        simp [h, List.filter_cons, ih2, Nat.mod_eq_of_lt hl]
      · have h3 : ¬ (l.length == L) = true := by simpa using h2
        simp [h, h2, List.filter_cons, ih2, Nat.mod_eq_of_lt hl, List.count_cons, h3]
    · simp [h, List.filter_cons, ih2]

theorem find_lendistOf (lines : List (List Char)) (L : Nat) :
    UMap.find (lendistOf lines) L =
      if (classKeys 0 lines).count L = 0 then none
      else some ((classKeys 0 lines).count L % UINT_MOD) := by
  rw [lendistOf_eq_foldl, find_foldl_tallyKey]
  simp only [UMap.find]
  exact bump_none _

theorem classKeys_nil_of (ys : List (List Char)) (i : Nat)
    (h : ∀ j, (i + j) % 4 = 1 → ys[j]? = none) : classKeys i ys = [] := by
  induction ys generalizing i with
  | nil => rfl
  | cons y ys ih =>
    have h0 : ¬ i % 4 = 1 := fun e => by
      have := h 0 (by simpa using e)
      simp at this
    simp only [classKeys, h0, if_false]
    apply ih
    intro j hj
    have := h (j + 1) (by rw [← hj]; congr 1; omega)
    simpa using this

theorem classKeys_congr (xs ys : List (List Char)) (i : Nat)
    (h : ∀ j, (i + j) % 4 = 1 → xs[j]? = ys[j]?) : classKeys i xs = classKeys i ys := by
  induction xs generalizing ys i with
  | nil =>
    rw [classKeys_nil_of ys i (fun j hj => (h j hj).symm)]
    rfl
  | cons x xs ih =>
    cases ys with
    | nil =>
      rw [classKeys_nil_of (x :: xs) i (fun j hj => h j hj)]
      rfl
    | cons y ys =>
      have hrec : classKeys (i + 1) xs = classKeys (i + 1) ys := by
        apply ih
        intro j hj
        have := h (j + 1) (by rw [← hj]; congr 1; omega)
        simpa using this
      simp only [classKeys, hrec]
      by_cases h0 : i % 4 = 1
      · have := h 0 (by simpa using h0)
        simp at this
        simp [h0, this]
      · simp [h0]

theorem find_eq_none_iff (m : UMap K) (k : K) :
    UMap.find m k = none ↔ k ∉ m.map Prod.fst := by
  induction m with
  | nil => simp [UMap.find]
  | cons e m ih =>
    obtain ⟨a, b⟩ := e
    by_cases h : a = k
    · simp [UMap.find, h]
    · have h2 : ¬ k = a := fun e => h e.symm
      simp [UMap.find, h, h2, ih]

theorem mem_of_find_eq_some (m : UMap K) (k : K) (c : Nat) (h : UMap.find m k = some c) :
    (k, c) ∈ m := by
  induction m with
  | nil => simp [UMap.find] at h
  | cons e m ih =>
    obtain ⟨a, b⟩ := e
    by_cases h2 : a = k
    · simp [UMap.find, h2] at h
      simp [h2, h]
    · simp [UMap.find, h2] at h
      exact List.mem_cons_of_mem _ (ih h)

theorem find_eq_some_of_mem (m : UMap K) (hwf : m.WF) (k : K) (c : Nat) (h : (k, c) ∈ m) :
    UMap.find m k = some c := by
  induction m with
  | nil => simp at h
  | cons e m ih =>
    obtain ⟨a, b⟩ := e
    have hnd : a ∉ m.map Prod.fst ∧ (m.map Prod.fst).Nodup := by
      simpa [UMap.WF] using hwf
    rcases List.mem_cons.1 h with h1 | h1
    · cases h1
      simp [UMap.find]
    · have hne : ¬ a = k := by
        intro e
        apply hnd.1
        rw [e]
        exact List.mem_map_of_mem Prod.fst h1
      simp only [UMap.find, hne, if_false]
      exact ih hnd.2 h1

theorem keys_incr (m : UMap K) (k : K) :
    (UMap.incr m k).map Prod.fst = m.map Prod.fst := by
  induction m with
  | nil => rfl
  | cons e m ih =>
    obtain ⟨a, b⟩ := e
    by_cases h : a = k
    · simp [UMap.incr, h]
    · simp [UMap.incr, h, ih]

theorem tallyKey_WF (m : UMap K) (k : K) (hwf : m.WF) : (tallyKey m k).WF := by
  unfold tallyKey
  cases hf : UMap.find m k with
  | none =>
    have hk := (find_eq_none_iff m k).1 hf
    simp only [UMap.emplace, hf, UMap.WF, List.map_append, List.map_cons, List.map_nil]
    rw [List.nodup_append]
    refine ⟨hwf, List.nodup_singleton _, ?_⟩
    intro x hx hx2
    rw [List.mem_singleton] at hx2
    exact hk (hx2 ▸ hx)
  | some v =>
    simp only [UMap.WF, keys_incr]
    exact hwf

theorem foldl_tallyKey_WF (ks : List K) (m : UMap K) (hwf : m.WF) :
    (ks.foldl tallyKey m).WF := by
  induction ks generalizing m with
  | nil => exact hwf
  | cons a ks ih => exact ih _ (tallyKey_WF m a hwf)

theorem lendistOf_WF (lines : List (List Char)) : (lendistOf lines).WF := by
  rw [lendistOf_eq_foldl]
  exact foldl_tallyKey_WF _ _ (by simp [UMap.WF])

theorem peakLoop_spec (es : List (Nat × Nat)) (b : Option (Nat × Nat))
    (h : es ≠ [] ∨ b ≠ none) :
    ∃ p, peakLoop es b = some p ∧ (p ∈ es ∨ b = some p) ∧
      (∀ e ∈ es, e.2 ≤ p.2) ∧ (∀ q, b = some q → q.2 ≤ p.2) := by
  induction es generalizing b with
  | nil =>
    cases b with
    | none => simp at h
    | some q => exact ⟨q, rfl, Or.inr rfl, by simp, by intro q' hq; cases hq; exact le_refl _⟩
  | cons e es ih =>
    cases b with
    | none =>
      obtain ⟨p, hp, hmem, hall, hb⟩ := ih (some e) (Or.inr (by simp))
      refine ⟨p, by simpa [peakLoop] using hp, ?_, ?_, by simp⟩
      · rcases hmem with h1 | h1
        · exact Or.inl (List.mem_cons_of_mem _ h1)
        · cases h1; exact Or.inl (List.mem_cons_self _ _)
      · intro x hx
        rcases List.mem_cons.1 hx with h1 | h1
        · rw [h1]; exact hb e rfl
        · exact hall x h1
    | some q =>
      by_cases hgt : e.2 > q.2
      · obtain ⟨p, hp, hmem, hall, hb⟩ := ih (some e) (Or.inr (by simp))
        refine ⟨p, by simpa [peakLoop, hgt] using hp, ?_, ?_, ?_⟩
        · rcases hmem with h1 | h1
          · exact Or.inl (List.mem_cons_of_mem _ h1)
          · cases h1; exact Or.inl (List.mem_cons_self _ _)
        · intro x hx
          rcases List.mem_cons.1 hx with h1 | h1
          · rw [h1]; exact hb e rfl
          · exact hall x h1
        · intro q' hq'
          cases hq'
          have := hb e rfl
          omega
      · obtain ⟨p, hp, hmem, hall, hb⟩ := ih (some q) (Or.inr (by simp))
        refine ⟨p, by simpa [peakLoop, hgt] using hp, ?_, ?_, ?_⟩
        · rcases hmem with h1 | h1
          · exact Or.inl (List.mem_cons_of_mem _ h1)
          · exact Or.inr h1
        · intro x hx
          rcases List.mem_cons.1 hx with h1 | h1
          · rw [h1]
            have := hb q rfl
            omega
          · exact hall x h1
        · intro q' hq'
          cases hq'
          exact hb q rfl

theorem selectPeak_spec (es : List (Nat × Nat)) (h : es ≠ []) :
    ∃ p, selectPeak es = some p ∧ p ∈ es ∧ ∀ e ∈ es, e.2 ≤ p.2 := by
  obtain ⟨p, hp, hmem, hall, _⟩ := peakLoop_spec es none (Or.inl h)
  refine ⟨p, hp, ?_, hall⟩
  rcases hmem with h1 | h1
  · exact h1
  · simp at h1

/-- C2. No false peak: for every non-empty length tally and every iteration order of
its entries, the key selected by the peak loop is a key of the tally and its
count is greater than or equal to the count of every key of the tally. -/
theorem peak_count_is_maximal (lendist : UMap Nat) (hwf : lendist.WF) (hne : lendist ≠ [])
    (entries : List (Nat × Nat)) (horder : entries.Perm lendist) :
    ∃ k c, selectPeak entries = some (k, c) ∧ UMap.find lendist k = some c ∧
      ∀ k' c', UMap.find lendist k' = some c' → c' ≤ c := by
  have hne2 : entries ≠ [] := by
    intro e
    rw [e] at horder
    exact hne (List.Perm.nil_eq horder).symm
  obtain ⟨p, hp, hmem, hall⟩ := selectPeak_spec entries hne2
  refine ⟨p.1, p.2, hp, ?_, ?_⟩
  · exact find_eq_some_of_mem lendist hwf p.1 p.2 (horder.mem_iff.1 hmem)
  · intro k' c' hf
    exact hall (k', c') (horder.mem_iff.2 (mem_of_find_eq_some lendist k' c' hf))

/-- Witness for C2: the tally with 50 counted 3 times and 48 counted 4 times,
iterated in the order opposite to insertion. -/
theorem peak_count_is_maximal_witness :
    UMap.WF [(50, 3), (48, 4)] ∧ ([(50, 3), (48, 4)] : UMap Nat) ≠ [] ∧
      List.Perm [(48, 4), (50, 3)] [(50, 3), (48, 4)] ∧
      ∃ k c, selectPeak [(48, 4), (50, 3)] = some (k, c) ∧
        UMap.find [(50, 3), (48, 4)] k = some c ∧
        ∀ k' c', UMap.find [(50, 3), (48, 4)] k' = some c' → c' ≤ c :=
  ⟨by simp [UMap.WF], by simp, by decide,
    peak_count_is_maximal [(50, 3), (48, 4)] (by simp [UMap.WF]) (by simp)
      [(48, 4), (50, 3)] (by decide)⟩

theorem classCount_eq_count (lines : List (List Char)) (L : Nat)
    (hlen : ∀ p ∈ lines.enum, p.1 % 4 = 1 → p.2.length < UINT_MOD) :
    (classKeys 0 lines).count L = classCount lines L := by
  rw [count_classKeys lines 0 L hlen]
  rfl

theorem find_lendistOf_exact (lines : List (List Char)) (L : Nat)
    (hlen : ∀ p ∈ lines.enum, p.1 % 4 = 1 → p.2.length < UINT_MOD)
    (hcnt : classCount lines L < UINT_MOD) :
    UMap.find (lendistOf lines) L =
      (if classCount lines L = 0 then none else some (classCount lines L)) := by
  rw [find_lendistOf, classCount_eq_count lines L hlen, Nat.mod_eq_of_lt hcnt]

/-- C1 (amended). For every sequence of input lines in which every
classification line (0-based index `i` with `i % 4 = 1`) has fewer than `2 ^ 32`
characters and fewer than `2 ^ 32` classification lines have length `L`, the
tally built by the scan loop maps `L` to exactly the number of classification
lines that have `L` characters, and has no entry for `L` when there is no such
line; the keys of the tally are distinct; and every sequence of lines that agrees
with it at all indices with `i % 4 = 1` yields the same tally, so the other lines
have no effect. -/
theorem lenpick_tally_exact (lines : List (List Char)) (L : Nat)
    (hlen : ∀ p ∈ lines.enum, p.1 % 4 = 1 → p.2.length < UINT_MOD)
    (hcnt : classCount lines L < UINT_MOD) :
    UMap.find (lendistOf lines) L =
        (if classCount lines L = 0 then none else some (classCount lines L)) ∧
      (lendistOf lines).WF ∧
      ∀ lines' : List (List Char),
        (∀ i, i % 4 = 1 → lines'[i]? = lines[i]?) → lendistOf lines' = lendistOf lines := by
  refine ⟨?_, lendistOf_WF lines, ?_⟩
  · exact find_lendistOf_exact lines L hlen hcnt
  · intro lines' h
    rw [lendistOf_eq_foldl, lendistOf_eq_foldl,
      classKeys_congr lines' lines 0 (fun j hj => h j (by simpa using hj))]

/-- Witness for C1: the hypotheses of `lenpick_tally_exact` hold for one four-line
record and the length 2. -/
theorem lenpick_tally_exact_witness :
    (∀ p ∈ List.enum [['@', 'r'], ['A', 'C'], ['+'], ['I', 'I']],
        p.1 % 4 = 1 → p.2.length < UINT_MOD) ∧
      classCount [['@', 'r'], ['A', 'C'], ['+'], ['I', 'I']] 2 < UINT_MOD ∧
      (UMap.find (lendistOf [['@', 'r'], ['A', 'C'], ['+'], ['I', 'I']]) 2 =
          (if classCount [['@', 'r'], ['A', 'C'], ['+'], ['I', 'I']] 2 = 0 then none
            else some (classCount [['@', 'r'], ['A', 'C'], ['+'], ['I', 'I']] 2)) ∧
        (lendistOf [['@', 'r'], ['A', 'C'], ['+'], ['I', 'I']]).WF ∧
        ∀ lines' : List (List Char),
          (∀ i, i % 4 = 1 → lines'[i]? = [['@', 'r'], ['A', 'C'], ['+'], ['I', 'I']][i]?) →
            lendistOf lines' = lendistOf [['@', 'r'], ['A', 'C'], ['+'], ['I', 'I']]) :=
  ⟨by decide, by decide,
    lenpick_tally_exact [['@', 'r'], ['A', 'C'], ['+'], ['I', 'I']] 2 (by decide) (by decide)⟩

theorem two_lines_long_second (big : List Char) (h : big.length = 4294967296) :
    classCount [[], big] 4294967296 = 1 ∧
      UMap.find (lendistOf [[], big]) 4294967296 = none ∧
      classCount [[], big] 0 = 0 ∧
      UMap.find (lendistOf [[], big]) 0 = some 1 := by
  refine ⟨?_, ?_, ?_, ?_⟩
  · simp [classCount, List.enum, List.enumFrom, h]
  · simp [lendistOf, scanLines, tallyKey, UMap.find, UMap.emplace, UINT_MOD, h]
  · have hne : big ≠ [] := by
      intro e
      rw [e] at h
      simp at h
    simp [classCount, List.enum, List.enumFrom, h, hne]
  · simp [lendistOf, scanLines, tallyKey, UMap.find, UMap.emplace, UINT_MOD, h]

/-- C1 as stated fails. In the two-line file whose second line has `2 ^ 32`
characters, one classification line has length `2 ^ 32`, yet the tally has no
entry for `2 ^ 32`; it has an entry of count 1 for the length 0, which no
classification line has (the length is converted to `unsigned`). -/
theorem lenpick_tally_counterexample :
    classCount [[], List.replicate 4294967296 'A'] 4294967296 = 1 ∧
      UMap.find (lendistOf [[], List.replicate 4294967296 'A']) 4294967296 = none ∧
      classCount [[], List.replicate 4294967296 'A'] 0 = 0 ∧
      UMap.find (lendistOf [[], List.replicate 4294967296 'A']) 0 = some 1 :=
  two_lines_long_second _ (List.length_replicate _ _)

theorem classKeys_fastq (ns : List Nat) (i : Nat) (hi : i % 4 = 0) :
    classKeys i (fastqOfLengths ns) = ns.map (fun n => n % UINT_MOD) := by
  induction ns generalizing i with
  | nil => rfl
  | cons n ns ih =>
    have h0 : ¬ i % 4 = 1 := by omega
    have h1 : (i + 1) % 4 = 1 := by omega
    have h2 : ¬ (i + 1 + 1) % 4 = 1 := by omega
    have h3 : ¬ (i + 1 + 1 + 1) % 4 = 1 := by omega
    have h4 : (i + 1 + 1 + 1 + 1) % 4 = 0 := by omega
    simp only [fastqOfLengths, classKeys, h0, h1, h2, h3,
      if_true, if_false, List.length_replicate, List.map_cons, ih _ h4]

theorem filter_enumFrom_fastq (ns : List Nat) (L i : Nat) (hi : i % 4 = 0) :
    (((fastqOfLengths ns).enumFrom i).filter
      (fun p => decide (p.1 % 4 = 1) && decide (p.2.length = L))).length = ns.count L := by
  induction ns generalizing i with
  | nil => rfl
  | cons n ns ih =>
    have h0 : ¬ i % 4 = 1 := by omega
    have h1 : (i + 1) % 4 = 1 := by omega
    have h2 : ¬ (i + 1 + 1) % 4 = 1 := by omega
    have h3 : ¬ (i + 1 + 1 + 1) % 4 = 1 := by omega
    have h4 : (i + 1 + 1 + 1 + 1) % 4 = 0 := by omega
    have ih2 := ih (i + 1 + 1 + 1 + 1) h4
    by_cases hn : n = L
    · subst hn
      simp [fastqOfLengths, List.enumFrom, List.filter_cons, h0, h1, h2, h3, ih2]
    · have hn2 : ¬ (n == L) = true := by simpa using hn
      simp [fastqOfLengths, List.enumFrom, List.filter_cons, h0, h1, h2, h3, ih2, hn,
        List.count_cons, hn2]

theorem classCount_fastq (ns : List Nat) (L : Nat) :
    classCount (fastqOfLengths ns) L = ns.count L :=
  filter_enumFrom_fastq ns L 0 rfl

theorem lendistOf_fastq (ns : List Nat) :
    lendistOf (fastqOfLengths ns) = (ns.map (fun n => n % UINT_MOD)).foldl tallyKey [] := by
  rw [lendistOf_eq_foldl, classKeys_fastq ns 0 rfl]

theorem length_classKeys (lines : List (List Char)) (i : Nat) :
    (classKeys i lines).length = (lines.length + (i + 2) % 4) / 4 := by
  induction lines generalizing i with
  | nil => simp [classKeys]
  | cons l ls ih =>
    simp only [classKeys, List.length_cons]
    by_cases h : i % 4 = 1
    · simp only [h, if_true, List.length_cons, ih]; omega
    · simp only [h, if_false, ih]; omega

theorem lendistOf_ne_nil (lines : List (List Char)) (h : 2 ≤ lines.length) :
    lendistOf lines ≠ [] := by
  match lines, h with
  | a :: b :: rest, _ =>
    intro e
    have hf := find_lendistOf (a :: b :: rest) (b.length % UINT_MOD)
    rw [e] at hf
    have hc : (classKeys 0 (a :: b :: rest)).count (b.length % UINT_MOD) ≠ 0 := by
      simp [classKeys]
    simp [UMap.find, hc] at hf

theorem lendistOf_short (lines : List (List Char)) (h : lines.length < 2) :
    lendistOf lines = [] := by
  match lines, h with
  | [], _ => rfl
  | [a], _ => rfl

theorem filePeak_ok (order : UMap Nat → List (Nat × Nat)) (horder : IterOrder order)
    (lines : List (List Char)) (h : 2 ≤ lines.length) :
    ∃ p, filePeak order lines = Except.ok p := by
  have hne : order (lendistOf lines) ≠ [] := by
    intro e
    have hp := horder (lendistOf lines)
    rw [e] at hp
    exact lendistOf_ne_nil lines h (List.Perm.nil_eq hp).symm
  obtain ⟨p, hp, _, _⟩ := selectPeak_spec _ hne
  exact ⟨p.1, by simp [filePeak, hp]⟩

theorem minScan_spec (xs : List Nat) (s : Nat) :
    (minScan xs s = s ∨ minScan xs s ∈ xs) ∧ minScan xs s ≤ s ∧ ∀ x ∈ xs, minScan xs s ≤ x := by
  induction xs generalizing s with
  | nil => simp [minScan]
  | cons y ys ih =>
    by_cases h : y < s
    · obtain ⟨h1, h2, h3⟩ := ih y
      simp only [minScan, h, if_true]
      refine ⟨Or.inr ?_, by omega, ?_⟩
      · rcases h1 with h1 | h1
        · rw [h1]; exact List.mem_cons_self _ _
        · exact List.mem_cons_of_mem _ h1
      · intro x hx
        rcases List.mem_cons.1 hx with e | e
        · rw [e]; exact h2
        · exact h3 x e
    · obtain ⟨h1, h2, h3⟩ := ih s
      simp only [minScan, h, if_false]
      refine ⟨?_, h2, ?_⟩
      · rcases h1 with h1 | h1
        · exact Or.inl h1
        · exact Or.inr (List.mem_cons_of_mem _ h1)
      · intro x hx
        rcases List.mem_cons.1 hx with e | e
        · rw [e]; omega
        · exact h3 x e

theorem minElement_spec (peaks : List Nat) (h : peaks ≠ []) :
    ∃ m, minElement peaks = some m ∧ m ∈ peaks ∧ ∀ p ∈ peaks, m ≤ p := by
  match peaks, h with
  | x :: xs, _ =>
    obtain ⟨h1, h2, h3⟩ := minScan_spec xs x
    refine ⟨minScan xs x, rfl, ?_, ?_⟩
    · rcases h1 with h1 | h1
      · rw [h1]; exact List.mem_cons_self _ _
      · exact List.mem_cons_of_mem _ h1
    · intro p hp
      rcases List.mem_cons.1 hp with e | e
      · rw [e]; exact h2
      · exact h3 p e

theorem collectPeaks_spec (order : UMap Nat → List (Nat × Nat)) (horder : IterOrder order)
    (files : List (List (List Char))) (acc : List Nat) (h : ∀ f ∈ files, 2 ≤ f.length) :
    ∃ peaks, List.Forall₂ (fun f p => filePeak order f = Except.ok p) files peaks ∧
      collectPeaks order files acc = Except.ok (acc ++ peaks) := by
  induction files generalizing acc with
  | nil => exact ⟨[], List.Forall₂.nil, by simp [collectPeaks]⟩
  | cons f fs ih =>
    obtain ⟨p, hp⟩ := filePeak_ok order horder f (h f (List.mem_cons_self _ _))
    obtain ⟨ps, hps, hc⟩ := ih (acc ++ [p]) (fun g hg => h g (List.mem_cons_of_mem _ hg))
    refine ⟨p :: ps, List.Forall₂.cons hp hps, ?_⟩
    simp only [collectPeaks, hp, hc]
    simp

/-- C5. Min-of-peaks: for every non-empty list of input files, each with at
least one classification line (two lines or more), the per-file loop computes one
peak per file from that file alone, and the integer that `lenpick` prints is one of
these peaks and is less than or equal to all of them. -/
theorem lenpick_prints_min_of_peaks (order : UMap Nat → List (Nat × Nat))
    (horder : IterOrder order) (files : List (List (List Char))) (hne : files ≠ [])
    (hcls : ∀ f ∈ files, 2 ≤ f.length) :
    ∃ peaks m, List.Forall₂ (fun f p => filePeak order f = Except.ok p) files peaks ∧
      lenpickMain order files = Except.ok (LenpickOutput.minpeak m) ∧
      m ∈ peaks ∧ ∀ p ∈ peaks, m ≤ p := by
  obtain ⟨peaks, hps, hc⟩ := collectPeaks_spec order horder files [] hcls
  have hpne : peaks ≠ [] := by
    intro e
    rw [e] at hps
    cases hps
    exact hne rfl
  obtain ⟨m, hm, hmem, hle⟩ := minElement_spec peaks hpne
  refine ⟨peaks, m, hps, ?_, hmem, hle⟩
  match files, hne with
  | f :: fs, _ =>
    simp only [lenpickMain, hc, List.nil_append, hm]

/-- Witness for C5 (scenario B): two files with peaks 48 and 52; `lenpick` prints 48. -/
theorem lenpick_prints_min_of_peaks_witness :
    IterOrder (fun m : UMap Nat => m) ∧
      [fastqOfLengths [48, 48, 52], fastqOfLengths [52]] ≠ [] ∧
      (∀ f ∈ [fastqOfLengths [48, 48, 52], fastqOfLengths [52]], 2 ≤ f.length) ∧
      filePeak (fun m => m) (fastqOfLengths [48, 48, 52]) = Except.ok 48 ∧
      filePeak (fun m => m) (fastqOfLengths [52]) = Except.ok 52 ∧
      lenpickMain (fun m => m) [fastqOfLengths [48, 48, 52], fastqOfLengths [52]] =
        Except.ok (LenpickOutput.minpeak 48) ∧
      ∃ peaks m,
        List.Forall₂ (fun f p => filePeak (fun m => m) f = Except.ok p)
          [fastqOfLengths [48, 48, 52], fastqOfLengths [52]] peaks ∧
        lenpickMain (fun m => m) [fastqOfLengths [48, 48, 52], fastqOfLengths [52]] =
          Except.ok (LenpickOutput.minpeak m) ∧
        m ∈ peaks ∧ ∀ p ∈ peaks, m ≤ p :=
  ⟨fun m => List.Perm.refl m, by simp, by decide, by rfl, by rfl, by rfl,
    lenpick_prints_min_of_peaks (fun m => m) (fun m => List.Perm.refl m)
      [fastqOfLengths [48, 48, 52], fastqOfLengths [52]] (by simp) (by decide)⟩

/-- C10 (the code departs from the claim). For every input file with fewer than
2 lines the tally is empty, the peak loop leaves `lengthpeak` equal to
`lendist.end()`, and `lengthpeak->first` dereferences it: the per-file step and the
whole run end in undefined behaviour rather than in an explicit empty-result
error. -/
theorem empty_tally_dereferences_end (order : UMap Nat → List (Nat × Nat))
    (horder : IterOrder order) (lines : List (List Char)) (h : lines.length < 2) :
    lendistOf lines = [] ∧ selectPeak (order (lendistOf lines)) = none ∧
      filePeak order lines = Except.error Fault.derefEnd ∧
      lenpickMain order [lines] = Except.error Fault.derefEnd := by
  have h1 := lendistOf_short lines h
  have h2 : order (lendistOf lines) = [] := by
    have hp := horder (lendistOf lines)
    rw [h1] at hp ⊢
    exact List.Perm.eq_nil hp
  have h3 : selectPeak (order (lendistOf lines)) = none := by rw [h2]; rfl
  have h4 : filePeak order lines = Except.error Fault.derefEnd := by simp [filePeak, h3]
  exact ⟨h1, h3, h4, by simp [lenpickMain, collectPeaks, h4]⟩

/-- Witness for C10: a file with the single line `@r`. -/
theorem empty_tally_dereferences_end_witness :
    IterOrder (fun m : UMap Nat => m) ∧ ([['@', 'r']] : List (List Char)).length < 2 ∧
      (lendistOf [['@', 'r']] = [] ∧
        selectPeak ((fun m : UMap Nat => m) (lendistOf [['@', 'r']])) = none ∧
        filePeak (fun m => m) [['@', 'r']] = Except.error Fault.derefEnd ∧
        lenpickMain (fun m => m) [[['@', 'r']]] = Except.error Fault.derefEnd) :=
  ⟨fun m => List.Perm.refl m, by decide,
    empty_tally_dereferences_end (fun m => m) (fun m => List.Perm.refl m) [['@', 'r']]
      (by decide)⟩

/-- C6 (amended). For every input file in which every classification line has
fewer than `2 ^ 32` characters and the length `L` occurs on fewer than `2 ^ 32`
classification lines and strictly more often than every other length, the peak
computed for the file is `L`, whatever the iteration order of the map. -/
theorem unique_mode_is_peak (order : UMap Nat → List (Nat × Nat)) (horder : IterOrder order)
    (lines : List (List Char)) (L : Nat)
    (hlen : ∀ p ∈ lines.enum, p.1 % 4 = 1 → p.2.length < UINT_MOD)
    (hcnt : classCount lines L < UINT_MOD)
    (huniq : ∀ L', L' ≠ L → classCount lines L' < classCount lines L) :
    filePeak order lines = Except.ok L := by
  have hall : ∀ L', UMap.find (lendistOf lines) L' =
      (if classCount lines L' = 0 then none else some (classCount lines L')) := by
    intro L'
    by_cases e : L' = L
    · rw [e]; exact find_lendistOf_exact lines L hlen hcnt
    · exact find_lendistOf_exact lines L' hlen (lt_trans (huniq L' e) hcnt)
  have hpos : classCount lines L ≠ 0 := by
    have := huniq (L + 1) (by omega)
    omega
  have hL : UMap.find (lendistOf lines) L = some (classCount lines L) := by
    rw [hall L, if_neg hpos]
  have hne : order (lendistOf lines) ≠ [] := by
    intro e
    have hp := horder (lendistOf lines)
    rw [e] at hp
    rw [← List.Perm.nil_eq hp] at hL
    simp [UMap.find] at hL
  obtain ⟨p, hp, hmem, hmax⟩ := selectPeak_spec _ hne
  have hmemL : (L, classCount lines L) ∈ order (lendistOf lines) :=
    (horder _).mem_iff.2 (mem_of_find_eq_some _ _ _ hL)
  have hge := hmax _ hmemL
  have hpf : UMap.find (lendistOf lines) p.1 = some p.2 :=
    find_eq_some_of_mem _ (lendistOf_WF lines) p.1 p.2 ((horder _).mem_iff.1 hmem)
  have hkey : p.1 = L := by
    by_contra hk
    have hlt := huniq p.1 hk
    rw [hall p.1] at hpf
    by_cases h0 : classCount lines p.1 = 0
    · simp [h0] at hpf
    · simp only [h0, if_false, Option.some.injEq] at hpf
      simp only at hge
      omega
  simp [filePeak, hp, hkey]

theorem count_scenarioA (L' : Nat) (h : L' ≠ 48) :
    List.count L' [50, 50, 48, 50, 48, 48, 48] < List.count 48 [50, 50, 48, 50, 48, 48, 48] := by
  have h2 : ¬ (48 = L') := fun e => h e.symm
  simp only [List.count_cons, List.count_nil, beq_iff_eq, h2, if_false]
  split_ifs <;> omega

/-- Witness for C6 (scenario A): classification lines of lengths
50, 50, 48, 50, 48, 48, 48 give the peak 48 (count 4 against count 3 for 50). -/
theorem unique_mode_is_peak_witness :
    IterOrder (fun m : UMap Nat => m) ∧
      (∀ p ∈ (fastqOfLengths [50, 50, 48, 50, 48, 48, 48]).enum,
        p.1 % 4 = 1 → p.2.length < UINT_MOD) ∧
      classCount (fastqOfLengths [50, 50, 48, 50, 48, 48, 48]) 48 < UINT_MOD ∧
      (∀ L', L' ≠ 48 → classCount (fastqOfLengths [50, 50, 48, 50, 48, 48, 48]) L' <
        classCount (fastqOfLengths [50, 50, 48, 50, 48, 48, 48]) 48) ∧
      classCount (fastqOfLengths [50, 50, 48, 50, 48, 48, 48]) 48 = 4 ∧
      classCount (fastqOfLengths [50, 50, 48, 50, 48, 48, 48]) 50 = 3 ∧
      filePeak (fun m => m) (fastqOfLengths [50, 50, 48, 50, 48, 48, 48]) = Except.ok 48 :=
  ⟨fun m => List.Perm.refl m, by decide, by decide,
    fun L' h => by rw [classCount_fastq, classCount_fastq]; exact count_scenarioA L' h,
    by decide, by decide,
    unique_mode_is_peak (fun m => m) (fun m => List.Perm.refl m)
      (fastqOfLengths [50, 50, 48, 50, 48, 48, 48]) 48 (by decide) (by decide)
      (fun L' h => by rw [classCount_fastq, classCount_fastq]; exact count_scenarioA L' h)⟩

theorem count_truncated (b L' : Nat) (hb1 : b ≠ 1) (hb2 : b ≠ 2) (h : L' ≠ 2) :
    List.count L' [b, b, 1, 1, 2, 2, 2] < List.count 2 [b, b, 1, 1, 2, 2, 2] := by
  have e2 : List.count 2 [b, b, 1, 1, 2, 2, 2] = 3 := by
    simp [List.count_cons, hb2]
  rw [e2]
  have h2 : ¬ (2 = L') := fun e => h e.symm
  by_cases hb : b = L'
  · subst hb
    have h1 : ¬ (1 = b) := fun e => hb1 e.symm
    simp [List.count_cons, h2, h1]
  · by_cases h1 : 1 = L'
    · subst h1
      simp [List.count_cons, hb]
    · simp [List.count_cons, hb, h1, h2]

theorem filePeak_of_lendist (order : UMap Nat → List (Nat × Nat)) (lines : List (List Char))
    (t : UMap Nat) (k c : Nat) (h : lendistOf lines = t)
    (hp : selectPeak (order t) = some (k, c)) : filePeak order lines = Except.ok k := by
  simp [filePeak, h, hp]

theorem foldl_truncated :
    (([4294967297, 4294967297, 1, 1, 2, 2, 2] : List Nat).map
      (fun n => n % UINT_MOD)).foldl tallyKey [] = [(1, 4), (2, 3)] := by
  decide

/-- C6 as stated fails. Among the classification-line lengths
`2 ^ 32 + 1` (twice), 1 (twice) and 2 (three times) the length 2 occurs strictly
more often than every other length, but the lengths `2 ^ 32 + 1` are tallied
under the key 1, the tally is `1:4, 2:3`, and the peak is 1 for every iteration
order. -/
theorem unique_mode_counterexample :
    (∀ L', L' ≠ 2 →
        classCount (fastqOfLengths [4294967297, 4294967297, 1, 1, 2, 2, 2]) L' <
          classCount (fastqOfLengths [4294967297, 4294967297, 1, 1, 2, 2, 2]) 2) ∧
      lendistOf (fastqOfLengths [4294967297, 4294967297, 1, 1, 2, 2, 2]) = [(1, 4), (2, 3)] ∧
      filePeak (fun m => m) (fastqOfLengths [4294967297, 4294967297, 1, 1, 2, 2, 2]) =
        Except.ok 1 ∧
      ∀ order : UMap Nat → List (Nat × Nat), IterOrder order →
        filePeak order (fastqOfLengths [4294967297, 4294967297, 1, 1, 2, 2, 2]) =
          Except.ok 1 := by
  have hd : lendistOf (fastqOfLengths [4294967297, 4294967297, 1, 1, 2, 2, 2]) =
      [(1, 4), (2, 3)] := by
    rw [lendistOf_fastq]; exact foldl_truncated
  refine ⟨fun L' h => ?_, hd, ?_, ?_⟩
  · rw [classCount_fastq, classCount_fastq]
    exact count_truncated 4294967297 L' (by decide) (by decide) h
  · exact filePeak_of_lendist _ _ _ 1 4 hd rfl
  · intro order horder
    have hperm := horder [(1, 4), (2, 3)]
    have hne : order [(1, 4), (2, 3)] ≠ [] := by
      intro e
      rw [e] at hperm
      exact absurd (List.Perm.nil_eq hperm) (by simp)
    obtain ⟨p, hp, hmem, hmax⟩ := selectPeak_spec _ hne
    have h4 := hmax (1, 4) (hperm.mem_iff.2 (by simp))
    have hp2 : p = (1, 4) := by
      have hm := hperm.mem_iff.1 hmem
      simp only [List.mem_cons, List.mem_singleton, List.not_mem_nil, or_false] at hm
      rcases hm with e | e
      · exact e
      · rw [e] at h4
        simp at h4
    rw [hp2] at hp
    exact filePeak_of_lendist order _ _ 1 4 hd hp

theorem lenpick_count_wraps :
    UMap.find (lendistOf (fastqOfLengths (List.replicate 4294967296 0))) 0 = some 0 := by
  rw [find_lendistOf, classKeys_fastq _ 0 rfl, List.map_replicate]
  have h0 : (0 : Nat) % UINT_MOD = 0 := rfl
  rw [h0, List.count_replicate_self]
  simp [UINT_MOD]

theorem lendistOf_counts_pos (lines : List (List Char))
    (h : (lines.length + 2) / 4 < UINT_MOD) (k c : Nat)
    (hf : UMap.find (lendistOf lines) k = some c) : 1 ≤ c ∧ c ≤ (lines.length + 2) / 4 := by
  rw [find_lendistOf] at hf
  have hle : (classKeys 0 lines).count k ≤ (lines.length + 2) / 4 := by
    have := List.count_le_length k (classKeys 0 lines)
    rw [length_classKeys] at this
    simpa using this
  by_cases h0 : (classKeys 0 lines).count k = 0
  · simp [h0] at hf
  · simp only [h0, if_false, Option.some.injEq] at hf
    rw [Nat.mod_eq_of_lt (lt_of_le_of_lt hle h)] at hf
    omega

theorem fgetsChars_line (l rest : List Char) (room : Nat) (hnl : ∀ c ∈ l, c ≠ '\n')
    (hroom : l.length < room) :
    fgetsChars room (l ++ '\n' :: rest) = (l ++ ['\n'], rest) := by
  induction l generalizing room with
  | nil =>
    cases room with
    | zero => simp at hroom
    | succ r => simp [fgetsChars]
  | cons c cs ih =>
    cases room with
    | zero => simp at hroom
    | succ r =>
      have hc : c ≠ '\n' := hnl c (List.mem_cons_self _ _)
      have hcs := ih r (fun x hx => hnl x (List.mem_cons_of_mem _ hx))
        (by simpa using hroom)
      simp [fgetsChars, hc, hcs]

theorem fitsBuffer_iff (l : List Char) :
    FitsBuffer l = true ↔ l.length + 1 < MAX_LINE_LENGTH ∧ ∀ c ∈ l, c ≠ '\n' := by
  simp [FitsBuffer]

theorem fgets_line (l rest : List Char) (hfit : FitsBuffer l = true) :
    fgets MAX_LINE_LENGTH (l ++ '\n' :: rest) = some (l ++ ['\n'], rest) := by
  obtain ⟨h1, h2⟩ := (fitsBuffer_iff l).1 hfit
  have hroom : l.length < MAX_LINE_LENGTH - 1 := by omega
  have := fgetsChars_line l rest (MAX_LINE_LENGTH - 1) h2 hroom
  cases l with
  | nil => simpa [fgets] using this
  | cons c cs => simpa [fgets] using this

theorem readLoop_unlines (lines : List (List Char)) (fuel : Nat) (tally : UMap (List Char))
    (hfit : ∀ l ∈ lines, FitsBuffer l = true) (hfuel : (unlines lines).length < fuel) :
    readLoop fuel (unlines lines) tally = some (perLine lines tally) := by
  induction lines generalizing fuel tally with
  | nil =>
    cases fuel with
    | zero => simp at hfuel
    | succ f => simp [unlines, readLoop, fgets, perLine]
  | cons l ls ih =>
    cases fuel with
    | zero => simp at hfuel
    | succ f =>
      have hl := fgets_line l (unlines ls) (hfit l (List.mem_cons_self _ _))
      have hf : (unlines ls).length < f := by
        simp only [unlines, List.length_append, List.length_cons] at hfuel
        omega
      simp only [unlines, readLoop, hl, perLine]
      cases hp : processBuffer (l ++ ['\n']) tally with
      | error e => rfl
      | ok t' => exact ih f t' (fun x hx => hfit x (List.mem_cons_of_mem _ hx)) hf

theorem readTally_unlines (lines : List (List Char))
    (hfit : ∀ l ∈ lines, FitsBuffer l = true) :
    readTally (unlines lines) = some (perLine lines []) :=
  readLoop_unlines lines _ [] hfit (Nat.lt_succ_self _)

theorem processBuffer_header (buffer : List Char) (tally : UMap (List Char))
    (h : buffer.head? = some '@') : processBuffer buffer tally = Except.ok tally := by
  simp [processBuffer, h]

theorem processBuffer_step (buffer : List Char) (tally tally' : UMap (List Char))
    (h : processBuffer buffer tally = Except.ok tally') :
    tally' = tally ∨ ∃ k, tally' = tallyKey tally k := by
  unfold processBuffer at h
  split at h
  · left; cases h; rfl
  · split at h
    · cases h
    · split at h
      · cases h
      · split at h
        · left; cases h; rfl
        · split at h
          · cases h
          · right; cases h; exact ⟨_, rfl⟩

theorem takeWhile_append_stop {p : Char → Bool} (f rest : List Char) (d : Char)
    (hf : ∀ c ∈ f, p c = true) (hd : p d = false) :
    (f ++ d :: rest).takeWhile p = f := by
  induction f with
  | nil => simp [List.takeWhile, hd]
  | cons c cs ih =>
    have hc := hf c (List.mem_cons_self _ _)
    simp [List.takeWhile, hc, ih (fun x hx => hf x (List.mem_cons_of_mem _ hx))]

theorem dropWhile_append_stop {p : Char → Bool} (f rest : List Char) (d : Char)
    (hf : ∀ c ∈ f, p c = true) (hd : p d = false) :
    (f ++ d :: rest).dropWhile p = d :: rest := by
  induction f with
  | nil => simp [List.dropWhile, hd]
  | cons c cs ih =>
    have hc := hf c (List.mem_cons_self _ _)
    simp [List.dropWhile, hc, ih (fun x hx => hf x (List.mem_cons_of_mem _ hx))]

theorem strtok_token (f rest : List Char) (d : Char) (hne : f ≠ [])
    (hf : ∀ c ∈ f, isDelim c = false) (hd : isDelim d = true) :
    strtok (f ++ d :: rest) = (some f, rest) := by
  match f, hne with
  | c :: cs, _ =>
    have hc : isDelim c = false := hf c (List.mem_cons_self _ _)
    have h1 : ((c :: cs) ++ d :: rest).dropWhile isDelim = c :: (cs ++ d :: rest) := by
      simp [List.dropWhile, hc]
    have hf2 : ∀ x ∈ c :: cs, (fun x => !isDelim x) x = true := by
      intro x hx; simp [hf x hx]
    have hd2 : (fun x => !isDelim x) d = false := by simp [hd]
    have h2 := takeWhile_append_stop (c :: cs) rest d hf2 hd2
    have h3 := dropWhile_append_stop (c :: cs) rest d hf2 hd2
    simp only [List.cons_append] at h1 h2 h3
    simp only [strtok, List.cons_append, h1, h2, h3, List.tail_cons]

theorem cString_append (a b : List Char) (h : ∀ c ∈ a, c ≠ NUL) :
    cString (a ++ b) = a ++ cString b := by
  induction a with
  | nil => rfl
  | cons c cs ih =>
    have hc := h c (List.mem_cons_self _ _)
    have := ih (fun x hx => h x (List.mem_cons_of_mem _ hx))
    simp only [cString] at this ⊢
    simp only [List.cons_append, List.takeWhile, hc, ne_eq, not_false_eq_true, decide_True]
    exact congrArg (List.cons c) this

theorem cString_cons (c : Char) (b : List Char) (h : c ≠ NUL) :
    cString (c :: b) = c :: cString b :=
  cString_append [c] b (by simpa using h)

theorem splitTabs_ne_nil (l : List Char) : splitTabs l ≠ [] := by
  cases l with
  | nil => simp [splitTabs]
  | cons c cs =>
    by_cases h : c = '\t'
    · simp [splitTabs, h]
    · simp only [splitTabs, h, if_false]
      split <;> simp

theorem splitTabs_decomp (l f : List Char) (rest : List (List Char))
    (h : splitTabs l = f :: rest) :
    (∀ c ∈ f, c ≠ '\t') ∧ (∀ c ∈ f, c ∈ l) ∧
      ((rest = [] ∧ l = f) ∨ ∃ l', l = f ++ '\t' :: l' ∧ splitTabs l' = rest) := by
  induction l generalizing f rest with
  | nil =>
    simp only [splitTabs, List.cons.injEq] at h
    obtain ⟨h1, h2⟩ := h
    subst h1; subst h2
    simp
  | cons c cs ih =>
    by_cases hc : c = '\t'
    · simp only [splitTabs, hc, if_true, List.cons.injEq] at h
      obtain ⟨h1, h2⟩ := h
      subst h1
      refine ⟨by simp, by simp, Or.inr ⟨cs, by simp [hc], h2⟩⟩
    · simp only [splitTabs, hc, if_false] at h
      cases hs : splitTabs cs with
      | nil => exact absurd hs (splitTabs_ne_nil cs)
      | cons g gs =>
        rw [hs] at h
        simp only [List.cons.injEq] at h
        obtain ⟨h1, h2⟩ := h
        subst h1; subst h2
        obtain ⟨i1, i2, i3⟩ := ih g gs hs
        refine ⟨?_, ?_, ?_⟩
        · intro x hx
          rcases List.mem_cons.1 hx with e | e
          · rw [e]; exact hc
          · exact i1 x e
        · intro x hx
          rcases List.mem_cons.1 hx with e | e
          · rw [e]; exact List.mem_cons_self _ _
          · exact List.mem_cons_of_mem _ (i2 x e)
        · rcases i3 with ⟨e1, e2⟩ | ⟨l', e1, e2⟩
          · left; exact ⟨e1, by rw [e2]⟩
          · right; exact ⟨l', by rw [e1]; rfl, e2⟩

theorem plainField_iff (f : List Char) :
    PlainField f = true ↔ f ≠ [] ∧ ∀ c ∈ f, c ≠ NUL := by
  cases f <;> simp [PlainField]

theorem field_then_delim (l f : List Char) (rest : List (List Char))
    (h : splitTabs l = f :: rest) :
    ∃ d tail, isDelim d = true ∧ d ≠ NUL ∧ l ++ ['\n'] = f ++ d :: tail := by
  obtain ⟨_, _, h3⟩ := splitTabs_decomp l f rest h
  rcases h3 with ⟨_, e⟩ | ⟨l', e, _⟩
  · exact ⟨'\n', [], by decide, by decide, by rw [e]⟩
  · exact ⟨'\t', l' ++ ['\n'], by decide, by decide, by rw [e]; simp⟩

theorem not_delim_of (l f : List Char) (rest : List (List Char))
    (h : splitTabs l = f :: rest) (hnl : ∀ c ∈ l, c ≠ '\n') :
    ∀ c ∈ f, isDelim c = false := by
  obtain ⟨h1, h2, _⟩ := splitTabs_decomp l f rest h
  intro c hc
  have a := h1 c hc
  have b := hnl c (h2 c hc)
  simp [isDelim, a, b]

theorem processBuffer_fields (l f0 f1 f2 : List Char) (rest : List (List Char))
    (tally : UMap (List Char)) (hnl : ∀ c ∈ l, c ≠ '\n')
    (hs : splitTabs l = f0 :: f1 :: f2 :: rest)
    (p0 : PlainField f0 = true) (p1 : PlainField f1 = true) (p2 : PlainField f2 = true)
    (hat : l.head? ≠ some '@') :
    processBuffer (l ++ ['\n']) tally =
      match atoi f1 with
      | Except.error e => Except.error e
      | Except.ok bflag =>
        if bitAnd bflag 4 ≠ 0 then Except.ok tally else Except.ok (tallyKey tally f2) := by
  obtain ⟨n0, z0⟩ := (plainField_iff f0).1 p0
  obtain ⟨n1, z1⟩ := (plainField_iff f1).1 p1
  obtain ⟨n2, z2⟩ := (plainField_iff f2).1 p2
  obtain ⟨_, m0, d0⟩ := splitTabs_decomp l f0 _ hs
  have hd0 := not_delim_of l f0 _ hs hnl
  rcases d0 with ⟨e, _⟩ | ⟨l1, e1, hs1⟩
  · cases e
  have hnl1 : ∀ c ∈ l1, c ≠ '\n' := by
    intro c hc
    apply hnl
    rw [e1]
    simp [hc]
  obtain ⟨_, m1, d1⟩ := splitTabs_decomp l1 f1 _ hs1
  have hd1 := not_delim_of l1 f1 _ hs1 hnl1
  rcases d1 with ⟨e, _⟩ | ⟨l2, e2, hs2⟩
  · cases e
  have hnl2 : ∀ c ∈ l2, c ≠ '\n' := by
    intro c hc
    apply hnl1
    rw [e2]
    simp [hc]
  have hd2 := not_delim_of l2 f2 _ hs2 hnl2
  obtain ⟨d, tail, hd, hdn, e3⟩ := field_then_delim l2 f2 _ hs2
  have hbuf : l ++ ['\n'] = f0 ++ '\t' :: (f1 ++ '\t' :: (f2 ++ d :: tail)) := by
    rw [e1, e2, ← e3]; simp
  have htab : ('\t' : Char) ≠ NUL := by decide
  have hcs : cString (l ++ ['\n']) =
      f0 ++ '\t' :: (f1 ++ '\t' :: (f2 ++ d :: cString tail)) := by
    rw [hbuf, cString_append _ _ z0, cString_cons _ _ htab, cString_append _ _ z1,
      cString_cons _ _ htab, cString_append _ _ z2, cString_cons _ _ hdn]
  have hl : (l ++ ['\n']).head? = l.head? := by
    rw [e1]
    cases f0 with
    | nil => exact absurd rfl n0
    | cons c cs => simp
  have hhead : ¬ (l ++ ['\n']).head? = some '@' := by
    rw [hl]; exact hat
  have t0 := strtok_token f0 (f1 ++ '\t' :: (f2 ++ d :: cString tail)) '\t' n0 hd0 (by decide)
  have t1 := strtok_token f1 (f2 ++ d :: cString tail) '\t' n1 hd1 (by decide)
  have t2 := strtok_token f2 (cString tail) d n2 hd2 hd
  unfold processBuffer
  rw [if_neg hhead, hcs, t0]
  simp only [t1, t2]
  try rfl

theorem processBuffer_line (l : List Char) (tally : UMap (List Char))
    (hnl : ∀ c ∈ l, c ≠ '\n') (hwf : l.head? ≠ some '@' → WellFormedRecord l = true) :
    processBuffer (l ++ ['\n']) tally = Except.ok (applyKey tally (recordKey l)) := by
  by_cases hat : l.head? = some '@'
  · have hh : (l ++ ['\n']).head? = some '@' := by
      cases l with
      | nil => simp at hat
      | cons c cs => simpa using hat
    rw [processBuffer_header _ _ hh]
    simp [recordKey, hat, applyKey]
  · have hw := hwf hat
    unfold WellFormedRecord at hw
    split at hw
    · rename_i f0 f1 f2 rest hs
      simp only [Bool.and_eq_true] at hw
      obtain ⟨⟨⟨p0, p1⟩, p2⟩, p3⟩ := hw
      rw [processBuffer_fields l f0 f1 f2 rest tally hnl hs p0 p1 p2 hat]
      unfold recordKey
      rw [if_neg hat, hs]
      cases ha : atoi f1 with
      | error e => rw [ha] at p3; simp at p3
      | ok v =>
        simp only [ha]
        by_cases hb : bitAnd v 4 = 0
        · simp [hb, applyKey]
        · simp [hb, applyKey]
    · cases hw

theorem perLine_eq_foldl (lines : List (List Char)) (tally : UMap (List Char))
    (hnl : ∀ l ∈ lines, ∀ c ∈ l, c ≠ '\n')
    (hwf : ∀ l ∈ lines, l.head? ≠ some '@' → WellFormedRecord l = true) :
    perLine lines tally = Except.ok ((lines.filterMap recordKey).foldl tallyKey tally) := by
  induction lines generalizing tally with
  | nil => rfl
  | cons l ls ih =>
    have h1 := processBuffer_line l tally (hnl l (List.mem_cons_self _ _))
      (hwf l (List.mem_cons_self _ _))
    have h2 := ih (applyKey tally (recordKey l))
      (fun x hx => hnl x (List.mem_cons_of_mem _ hx))
      (fun x hx => hwf x (List.mem_cons_of_mem _ hx))
    simp only [perLine, h1, h2]
    cases hk : recordKey l with
    | none => simp [List.filterMap_cons, hk, applyKey]
    | some k => simp [List.filterMap_cons, hk, applyKey]

theorem count_filterMap_recordKey (lines : List (List Char)) (k : List Char) :
    @List.count (List Char) instBEqOfDecidableEq k (lines.filterMap recordKey) =
      recordCount lines k := by
  induction lines with
  | nil => rfl
  | cons l ls ih =>
    unfold recordCount at ih ⊢
    cases hk : recordKey l with
    | none => simp [List.filterMap_cons, hk, List.filter_cons, ih]
    | some k' =>
      by_cases e : k' = k
      · subst e
        simp [List.filterMap_cons, hk, List.filter_cons, ih]
      · have e2 : ¬ (k' == k) = true := by simpa using e
        simp [List.filterMap_cons, hk, List.filter_cons, ih, e, List.count_cons, e2]

theorem fits_no_newline (l : List Char) (h : FitsBuffer l = true) : ∀ c ∈ l, c ≠ '\n' :=
  ((fitsBuffer_iff l).1 h).2

theorem smr_tally_mod (lines : List (List Char))
    (hfit : ∀ l ∈ lines, FitsBuffer l = true)
    (hwf : ∀ l ∈ lines, l.head? ≠ some '@' → WellFormedRecord l = true) :
    ∃ t, readTally (unlines lines) = some (Except.ok t) ∧ t.WF ∧
      ∀ k, UMap.find t k =
        if recordCount lines k = 0 then none else some (recordCount lines k % UINT_MOD) := by
  refine ⟨(lines.filterMap recordKey).foldl tallyKey [], ?_, ?_, ?_⟩
  · rw [readTally_unlines lines hfit,
      perLine_eq_foldl lines [] (fun l hl => fits_no_newline l (hfit l hl)) hwf]
  · exact foldl_tallyKey_WF _ _ (by simp [UMap.WF])
  · intro k
    rw [find_foldl_tallyKey, count_filterMap_recordKey]
    simp only [UMap.find]
    exact bump_none _

/-- C3 (amended). For every list of fewer than `2 ^ 32` input lines, each
without a newline inside and short enough to fit the line buffer with its
newline, in which every line not beginning with `@` has at least 3 tab-separated
fields, the first three non-empty and without NUL and the second an integer in
the range of `int`: the constructor returns a tally with distinct keys that maps
a molecule id `k` to exactly the number of non-header lines whose field 1, read as
an integer, has bit `0x4` clear and whose field 2 equals `k`, and has no entry for
`k` when there is no such line. -/
theorem smr_tally_exact (lines : List (List Char))
    (hfit : ∀ l ∈ lines, FitsBuffer l = true)
    (hwf : ∀ l ∈ lines, l.head? ≠ some '@' → WellFormedRecord l = true)
    (hn : lines.length < UINT_MOD) :
    ∃ t, readTally (unlines lines) = some (Except.ok t) ∧ t.WF ∧
      ∀ k, UMap.find t k =
        if recordCount lines k = 0 then none else some (recordCount lines k) := by
  obtain ⟨t, h1, h2, h3⟩ := smr_tally_mod lines hfit hwf
  refine ⟨t, h1, h2, fun k => ?_⟩
  rw [h3 k]
  have hle : recordCount lines k ≤ lines.length := List.length_filter_le _ _
  rw [Nat.mod_eq_of_lt (lt_of_le_of_lt hle hn)]

/-- Witness for C3 (scenario C): the three lines `read1 0 chrA`, `read2 4 chrB`,
`read3 0 chrA` satisfy the hypotheses and give the tally with the single entry
`chrA` counted twice. -/
theorem smr_tally_exact_witness :
    (∀ l ∈ scenarioC, FitsBuffer l = true) ∧
      (∀ l ∈ scenarioC, l.head? ≠ some '@' → WellFormedRecord l = true) ∧
      scenarioC.length < UINT_MOD ∧
      readTally (unlines scenarioC) = some (Except.ok [("chrA".toList, 2)]) ∧
      ∃ t, readTally (unlines scenarioC) = some (Except.ok t) ∧ t.WF ∧
        ∀ k, UMap.find t k =
          if recordCount scenarioC k = 0 then none else some (recordCount scenarioC k) :=
  ⟨by decide, by decide, by decide, by decide,
    smr_tally_exact scenarioC (by decide) (by decide) (by decide)⟩

/-- C3 as stated fails. The line made of an empty field, `0`, `chrA` and `x`
(tab-separated) has four tab-separated fields; field 1 is the integer 0 and
field 2 is `chrA`, so the claim counts one read for `chrA`.  The code, whose
`strtok` calls skip the empty first field, reads `chrA` as the flag and counts
the key `x` instead. -/
theorem smr_tally_counterexample :
    FitsBuffer "\t0\tchrA\tx".toList = true ∧
      "\t0\tchrA\tx".toList.head? ≠ some '@' ∧
      splitTabs "\t0\tchrA\tx".toList = [[], "0".toList, "chrA".toList, "x".toList] ∧
      recordKey "\t0\tchrA\tx".toList = some "chrA".toList ∧
      recordCount ["\t0\tchrA\tx".toList] "chrA".toList = 1 ∧
      recordCount ["\t0\tchrA\tx".toList] "x".toList = 0 ∧
      readTally (unlines ["\t0\tchrA\tx".toList]) = some (Except.ok [("x".toList, 1)]) :=
  ⟨by decide, by decide, by decide, by decide, by decide, by decide, by decide⟩

theorem fgetsChars_full (chunk rest : List Char) (room : Nat) (hlen : chunk.length = room)
    (hnl : ∀ c ∈ chunk, c ≠ '\n') : fgetsChars room (chunk ++ rest) = (chunk, rest) := by
  induction chunk generalizing room with
  | nil =>
    simp only [List.length_nil] at hlen
    subst hlen
    simp [fgetsChars]
  | cons c cs ih =>
    cases room with
    | zero => simp at hlen
    | succ r =>
      have hc : c ≠ '\n' := hnl c (List.mem_cons_self _ _)
      have := ih r (by simpa using hlen) (fun x hx => hnl x (List.mem_cons_of_mem _ hx))
      simp [fgetsChars, hc, this]

theorem readLoop_succ (fuel : Nat) (stream : List Char) (tally : UMap (List Char)) :
    readLoop (fuel + 1) stream tally =
      match fgets MAX_LINE_LENGTH stream with
      | none => some (Except.ok tally)
      | some (buffer, rest) =>
        match processBuffer buffer tally with
        | Except.error e => some (Except.error e)
        | Except.ok tally' => readLoop fuel rest tally' := rfl

theorem readTally_long_header (pad : List Char) (l : List Char)
    (hlen : pad.length + 1 = MAX_LINE_LENGTH - 1) (hpad : ∀ c ∈ pad, c ≠ '\n')
    (hfit : FitsBuffer l = true) :
    readTally (unlines [('@' :: pad) ++ l]) = some (perLine [l] []) := by
  have hs : unlines [('@' :: pad) ++ l] = ('@' :: pad) ++ unlines [l] := by
    simp [unlines]
  have hf : fgets MAX_LINE_LENGTH (('@' :: pad) ++ unlines [l]) =
      some ('@' :: pad, unlines [l]) := by
    have := fgetsChars_full ('@' :: pad) (unlines [l]) (MAX_LINE_LENGTH - 1)
      (by simpa using hlen)
      (by
        intro c hc
        rcases List.mem_cons.1 hc with e | e
        · rw [e]; decide
        · exact hpad c e)
    simpa [fgets] using this
  unfold readTally
  rw [hs, readLoop_succ, hf]
  simp only [processBuffer_header ('@' :: pad) [] rfl]
  apply readLoop_unlines [l]
  · intro x hx
    rw [List.mem_singleton] at hx
    rw [hx]; exact hfit
  · simp only [List.length_append, List.length_cons]
    omega

/-- C8 as stated fails. A header line of 2055 characters (an `@`, 2046 times `x`,
then `a`, tab, `0`, tab, `chrA`) begins with `@`, yet it adds the key `chrA`: `fgets`
returns its first 2047 characters, which are skipped as a header, and then the
rest of the line, which is read as a record of its own. -/
theorem smr_long_header_counterexample :
    (('@' :: List.replicate 2046 'x') ++ "a\t0\tchrA".toList).head? = some '@' ∧
      (('@' :: List.replicate 2046 'x') ++ "a\t0\tchrA".toList).length = 2055 ∧
      readTally (unlines [('@' :: List.replicate 2046 'x') ++ "a\t0\tchrA".toList]) =
        some (Except.ok [("chrA".toList, 1)]) := by
  refine ⟨rfl, ?_, ?_⟩
  · rw [List.length_append, List.length_cons, List.length_replicate]
    rfl
  rw [readTally_long_header (List.replicate 2046 'x') "a\t0\tchrA".toList
    (by rw [List.length_replicate]; rfl)
    (by intro c hc; rw [List.eq_of_mem_replicate hc]; decide) (by decide)]
  decide

/-- C8 (amended). For every list of input lines that have no newline inside and at
most `MAX_LINE_LENGTH - 2` characters, so that `fgets` reads each line with its
newline in one call, the constructor applies the loop body exactly once to every
line, in order; a line beginning with `@` leaves the tally unchanged, and a line
for which the loop body completes changes it by at most one increment of one
key. -/
theorem smr_one_record_per_line (lines : List (List Char))
    (hfit : ∀ l ∈ lines, FitsBuffer l = true) :
    readTally (unlines lines) = some (perLine lines []) ∧
      (∀ l ∈ lines, ∀ tally, l.head? = some '@' →
        processBuffer (l ++ ['\n']) tally = Except.ok tally) ∧
      (∀ l ∈ lines, ∀ tally tally', processBuffer (l ++ ['\n']) tally = Except.ok tally' →
        tally' = tally ∨ ∃ k, tally' = tallyKey tally k) := by
  refine ⟨readTally_unlines lines hfit, ?_, ?_⟩
  · intro l _ tally h
    apply processBuffer_header
    cases l with
    | nil => simp at h
    | cons c cs => simpa using h
  · intro l _ tally tally' h
    exact processBuffer_step _ _ _ h

/-- Witness for C8: a header line followed by one alignment line. -/
theorem smr_one_record_per_line_witness :
    (∀ l ∈ ["@SQ\tSN:chrA".toList, "read1\t0\tchrA\t100".toList], FitsBuffer l = true) ∧
      readTally (unlines ["@SQ\tSN:chrA".toList, "read1\t0\tchrA\t100".toList]) =
        some (Except.ok [("chrA".toList, 1)]) ∧
      (readTally (unlines ["@SQ\tSN:chrA".toList, "read1\t0\tchrA\t100".toList]) =
          some (perLine ["@SQ\tSN:chrA".toList, "read1\t0\tchrA\t100".toList] []) ∧
        (∀ l ∈ ["@SQ\tSN:chrA".toList, "read1\t0\tchrA\t100".toList], ∀ tally,
          l.head? = some '@' → processBuffer (l ++ ['\n']) tally = Except.ok tally) ∧
        (∀ l ∈ ["@SQ\tSN:chrA".toList, "read1\t0\tchrA\t100".toList], ∀ tally tally',
          processBuffer (l ++ ['\n']) tally = Except.ok tally' →
            tally' = tally ∨ ∃ k, tally' = tallyKey tally k)) :=
  ⟨by decide, by decide,
    smr_one_record_per_line ["@SQ\tSN:chrA".toList, "read1\t0\tchrA\t100".toList]
      (by decide)⟩

theorem perLine_keys (lines : List (List Char)) (t0 t : UMap (List Char))
    (h : perLine lines t0 = Except.ok t) :
    ∃ ks : List (List Char), ks.length ≤ lines.length ∧ t = ks.foldl tallyKey t0 := by
  induction lines generalizing t0 with
  | nil =>
    simp only [perLine, Except.ok.injEq] at h
    exact ⟨[], by simp, by rw [← h]; rfl⟩
  | cons l ls ih =>
    simp only [perLine] at h
    cases hp : processBuffer (l ++ ['\n']) t0 with
    | error e => rw [hp] at h; cases h
    | ok t1 =>
      rw [hp] at h
      obtain ⟨ks, hk1, hk2⟩ := ih t1 h
      rcases processBuffer_step _ _ _ hp with e | ⟨k, e⟩
      · exact ⟨ks, by simp; omega, by rw [hk2, e]⟩
      · exact ⟨k :: ks, by simp; omega, by rw [hk2, e]; rfl⟩

theorem foldl_counts_pos {K : Type} [DecidableEq K] (ks : List K) (n : Nat)
    (hlen : ks.length ≤ n) (hn : n < UINT_MOD) (k : K) (c : Nat)
    (hf : UMap.find (ks.foldl tallyKey ([] : UMap K)) k = some c) : 1 ≤ c ∧ c ≤ n := by
  rw [find_foldl_tallyKey] at hf
  simp only [UMap.find] at hf
  rw [bump_none] at hf
  have hle : ks.count k ≤ n := le_trans (List.count_le_length k ks) hlen
  by_cases h0 : ks.count k = 0
  · simp [h0] at hf
  · simp only [h0, if_false, Option.some.injEq] at hf
    rw [Nat.mod_eq_of_lt (lt_of_le_of_lt hle hn)] at hf
    omega

theorem readTally_counts_pos (lines : List (List Char))
    (hfit : ∀ l ∈ lines, FitsBuffer l = true) (hn : lines.length < UINT_MOD)
    (t : UMap (List Char)) (h : readTally (unlines lines) = some (Except.ok t))
    (k : List Char) (c : Nat) (hf : UMap.find t k = some c) : 1 ≤ c ∧ c ≤ lines.length := by
  rw [readTally_unlines lines hfit] at h
  simp only [Option.some.injEq] at h
  obtain ⟨ks, hk1, hk2⟩ := perLine_keys lines [] t h
  rw [hk2] at hf
  exact foldl_counts_pos ks lines.length hk1 hn k c hf

theorem printCounts_eq (delim : Char) (molid : List Char) (tallies : List (UMap (List Char)))
    (printdelim : Bool) :
    printCounts delim molid tallies printdelim =
      (if printdelim = true ∧ tallies ≠ [] then [delim] else []) ++
        joinWith delim (tallies.map (fun t => formatUnsigned (countOrZero molid t))) := by
  induction tallies generalizing printdelim with
  | nil => simp [printCounts, joinWith]
  | cons t ts ih =>
    have hz : formatUnsigned 0 = ['0'] := by decide
    simp only [printCounts, ih true]
    cases hfm : UMap.find t molid with
    | none =>
      cases ts with
      | nil => cases printdelim <;> simp [joinWith, countOrZero, hfm, hz]
      | cons u us => cases printdelim <;> simp [joinWith, countOrZero, hfm, hz]
    | some v =>
      cases ts with
      | nil => cases printdelim <;> simp [joinWith, countOrZero, hfm]
      | cons u us => cases printdelim <;> simp [joinWith, countOrZero, hfm]

theorem cString_of_no_nul (k : List Char) (h : ∀ c ∈ k, c ≠ NUL) : cString k = k := by
  have := cString_append k [] h
  simpa [cString] using this

theorem printRow_eq (delim : Char) (tallies : List (UMap (List Char))) (molid : List Char)
    (h : ∀ c ∈ molid, c ≠ NUL) :
    printRow delim tallies molid =
      tableRow delim molid (tallies.map (countOrZero molid)) := by
  unfold printRow tableRow
  rw [cString_of_no_nul molid h, printCounts_eq]
  simp [List.map_map, Function.comp_def]

theorem mem_foldl_setEmplace (es : List (List Char × Nat)) (acc : List (List Char))
    (x : List Char) :
    x ∈ es.foldl (fun acc kvpair => setEmplace acc kvpair.1) acc ↔
      x ∈ acc ∨ x ∈ es.map Prod.fst := by
  induction es generalizing acc with
  | nil => simp
  | cons e es ih =>
    rw [List.foldl_cons, ih]
    unfold setEmplace
    by_cases hm : e.1 ∈ acc
    · simp only [hm, if_true, List.map_cons, List.mem_cons]
      constructor
      · rintro (h | h)
        · exact Or.inl h
        · exact Or.inr (Or.inr h)
      · rintro (h | h | h)
        · exact Or.inl h
        · exact Or.inl (h ▸ hm)
        · exact Or.inr h
    · simp only [hm, if_false, List.map_cons, List.mem_cons, List.mem_append,
        List.mem_singleton]
      tauto

theorem nodup_foldl_setEmplace (es : List (List Char × Nat)) (acc : List (List Char))
    (h : acc.Nodup) : (es.foldl (fun acc kvpair => setEmplace acc kvpair.1) acc).Nodup := by
  induction es generalizing acc with
  | nil => exact h
  | cons e es ih =>
    rw [List.foldl_cons]
    apply ih
    unfold setEmplace
    by_cases hm : e.1 ∈ acc
    · simp [hm, h]
    · simp only [hm, if_false]
      rw [List.nodup_append]
      refine ⟨h, List.nodup_singleton _, ?_⟩
      intro a ha hb
      rw [List.mem_singleton] at hb
      exact hm (hb ▸ ha)

theorem mem_collectMolids (mapOrder : UMap (List Char) → List (List Char × Nat))
    (tallies : List (UMap (List Char))) (acc : List (List Char)) (x : List Char) :
    x ∈ collectMolids mapOrder tallies acc ↔
      x ∈ acc ∨ ∃ t ∈ tallies, x ∈ (mapOrder t).map Prod.fst := by
  induction tallies generalizing acc with
  | nil => simp [collectMolids]
  | cons t ts ih =>
    simp only [collectMolids, ih, mem_foldl_setEmplace, List.mem_cons, exists_eq_or_imp]
    tauto

theorem nodup_collectMolids (mapOrder : UMap (List Char) → List (List Char × Nat))
    (tallies : List (UMap (List Char))) (acc : List (List Char)) (h : acc.Nodup) :
    (collectMolids mapOrder tallies acc).Nodup := by
  induction tallies generalizing acc with
  | nil => exact h
  | cons t ts ih => exact ih _ (nodup_foldl_setEmplace _ _ h)

theorem mem_keys_iff_find (t : UMap (List Char)) (x : List Char) :
    x ∈ t.map Prod.fst ↔ UMap.find t x ≠ none := by
  rw [Ne, find_eq_none_iff, not_not]

theorem mem_molids_iff (mapOrder : UMap (List Char) → List (List Char × Nat))
    (hmap : IterOrder mapOrder) (tallies : List (UMap (List Char))) (x : List Char) :
    x ∈ collectMolids mapOrder tallies [] ↔ ∃ t ∈ tallies, UMap.find t x ≠ none := by
  rw [mem_collectMolids]
  simp only [List.not_mem_nil, false_or]
  constructor
  · rintro ⟨t, ht, hx⟩
    exact ⟨t, ht, (mem_keys_iff_find t x).1 ((((hmap t).map Prod.fst).mem_iff).1 hx)⟩
  · rintro ⟨t, ht, hx⟩
    exact ⟨t, ht, (((hmap t).map Prod.fst).mem_iff).2 ((mem_keys_iff_find t x).2 hx)⟩

theorem molid_no_nul (mapOrder : UMap (List Char) → List (List Char × Nat))
    (hmap : IterOrder mapOrder) (tallies : List (UMap (List Char)))
    (hkeys : ∀ t ∈ tallies, CStringKeys t = true) (x : List Char)
    (hx : x ∈ collectMolids mapOrder tallies []) : ∀ c ∈ x, c ≠ NUL := by
  obtain ⟨t, ht, hf⟩ := (mem_molids_iff mapOrder hmap tallies x).1 hx
  have hk := hkeys t ht
  obtain ⟨e, he, hxe⟩ := List.mem_map.1 ((mem_keys_iff_find t x).2 hf)
  simp only [CStringKeys, List.all_eq_true] at hk
  intro c hc
  have := hk e he c (by rw [hxe]; exact hc)
  simpa using this

theorem print_eq_rows (mapOrder : UMap (List Char) → List (List Char × Nat))
    (setOrder : List (List Char) → List (List Char)) (hmap : IterOrder mapOrder)
    (hset : ∀ s, (setOrder s).Perm s) (tallies : List (UMap (List Char)))
    (hkeys : ∀ t ∈ tallies, CStringKeys t = true) (delim : Char) :
    print mapOrder setOrder tallies delim =
      ((setOrder (collectMolids mapOrder tallies [])).map
        (fun k => tableRow delim k (tallies.map (countOrZero k)))).flatten := by
  unfold print
  congr 1
  apply List.map_congr_left
  intro k hk
  apply printRow_eq
  exact molid_no_nul mapOrder hmap tallies hkeys k ((hset _).mem_iff.1 hk)

/-- C4. Union table content: for every ordered collection of tallies (whose keys,
being C strings, hold no NUL) and all iteration orders, `print` writes exactly one
row per distinct key occurring in some tally (the keys of the rows are pairwise
distinct, and a key has a row if and only if some tally contains it), and in the
row of key `k` the `j`-th count is the count of `k` in the `j`-th tally, or 0
when `k` is absent there. -/
theorem print_union_table (mapOrder : UMap (List Char) → List (List Char × Nat))
    (setOrder : List (List Char) → List (List Char)) (hmap : IterOrder mapOrder)
    (hset : ∀ s, (setOrder s).Perm s) (tallies : List (UMap (List Char)))
    (hkeys : ∀ t ∈ tallies, CStringKeys t = true) (delim : Char) :
    ∃ keys : List (List Char), keys.Nodup ∧
      (∀ k, k ∈ keys ↔ ∃ t ∈ tallies, UMap.find t k ≠ none) ∧
      print mapOrder setOrder tallies delim =
        (keys.map (fun k => tableRow delim k (tallies.map (countOrZero k)))).flatten := by
  refine ⟨setOrder (collectMolids mapOrder tallies []), ?_, ?_, ?_⟩
  · exact (hset _).nodup_iff.2 (nodup_collectMolids mapOrder tallies [] List.nodup_nil)
  · intro k
    rw [(hset _).mem_iff]
    exact mem_molids_iff mapOrder hmap tallies k
  · exact print_eq_rows mapOrder setOrder hmap hset tallies hkeys delim

/-- Witness for C4 (scenario D): the tallies `chrA:2, chrB:1` and `chrB:3, chrC:1`
give the rows `chrA,2,0`, `chrB,1,3` and `chrC,0,1`. -/
theorem print_union_table_witness :
    IterOrder (fun m : UMap (List Char) => m) ∧
      (∀ s : List (List Char), ((fun s => s) s).Perm s) ∧
      (∀ t ∈ scenarioD, CStringKeys t = true) ∧
      print (fun m => m) (fun s => s) scenarioD ',' = "chrA,2,0\nchrB,1,3\nchrC,0,1\n".toList ∧
      ∃ keys : List (List Char), keys.Nodup ∧
        (∀ k, k ∈ keys ↔ ∃ t ∈ scenarioD, UMap.find t k ≠ none) ∧
        print (fun m => m) (fun s => s) scenarioD ',' =
          (keys.map (fun k => tableRow ',' k (scenarioD.map (countOrZero k)))).flatten :=
  ⟨fun m => List.Perm.refl m, fun s => List.Perm.refl s, by decide, by decide,
    print_union_table (fun m => m) (fun s => s) (fun m => List.Perm.refl m)
      (fun s => List.Perm.refl s) scenarioD (by decide) ','⟩

/-- C9. Row format and column order: for every ordered collection of `n` tallies
(whose keys, being C strings, hold no NUL), all iteration orders and every
delimiter character `d`, the text written by `print` is, for each key of the set
`molids` in turn and nothing else: the key, then `d`, then the count fields in
decimal separated by single `d` characters with none after the last, then a
newline.  There are exactly `n` count fields and the `j`-th one is the count
of the key in the `j`-th tally, that of the `j`-th input file. -/
theorem print_row_format (mapOrder : UMap (List Char) → List (List Char × Nat))
    (setOrder : List (List Char) → List (List Char)) (hmap : IterOrder mapOrder)
    (hset : ∀ s, (setOrder s).Perm s) (tallies : List (UMap (List Char)))
    (hkeys : ∀ t ∈ tallies, CStringKeys t = true) (delim : Char) :
    print mapOrder setOrder tallies delim =
        ((setOrder (collectMolids mapOrder tallies [])).map
          (fun k => k ++ [delim] ++
            joinWith delim (tallies.map (fun t => formatUnsigned (countOrZero k t))) ++
            ['\n'])).flatten ∧
      ∀ k, (tallies.map (fun t => formatUnsigned (countOrZero k t))).length = tallies.length ∧
        ∀ (j : Nat) (t : UMap (List Char)), tallies[j]? = some t →
          (tallies.map (fun t => formatUnsigned (countOrZero k t)))[j]? =
            some (formatUnsigned (countOrZero k t)) := by
  refine ⟨?_, fun k => ⟨by simp, ?_⟩⟩
  · rw [print_eq_rows mapOrder setOrder hmap hset tallies hkeys delim]
    simp [tableRow, List.map_map, Function.comp_def]
  · intro j t hj
    simp [List.getElem?_map, hj]

/-- Witness for C9: the tallies of scenario D written with the tab character as
delimiter. -/
theorem print_row_format_witness :
    IterOrder (fun m : UMap (List Char) => m) ∧
      (∀ s : List (List Char), ((fun s => s) s).Perm s) ∧
      (∀ t ∈ scenarioD, CStringKeys t = true) ∧
      print (fun m => m) (fun s => s) scenarioD '\t' =
        "chrA\t2\t0\nchrB\t1\t3\nchrC\t0\t1\n".toList ∧
      (print (fun m => m) (fun s => s) scenarioD '\t' =
          (((fun s => s) (collectMolids (fun m => m) scenarioD [])).map
            (fun k => k ++ ['\t'] ++
              joinWith '\t' (scenarioD.map (fun t => formatUnsigned (countOrZero k t))) ++
              ['\n'])).flatten ∧
        ∀ k, (scenarioD.map (fun t => formatUnsigned (countOrZero k t))).length =
            scenarioD.length ∧
          ∀ (j : Nat) (t : UMap (List Char)), scenarioD[j]? = some t →
            (scenarioD.map (fun t => formatUnsigned (countOrZero k t)))[j]? =
              some (formatUnsigned (countOrZero k t))) :=
  ⟨fun m => List.Perm.refl m, fun s => List.Perm.refl s, by decide, by decide,
    print_row_format (fun m => m) (fun s => s) (fun m => List.Perm.refl m)
      (fun s => List.Perm.refl s) scenarioD (by decide) '\t'⟩

theorem find_tallyKey_self {K : Type} [DecidableEq K] (m : UMap K) (k : K) :
    UMap.find (tallyKey m k) k =
      some (match UMap.find m k with
        | none => 1
        | some c => (c + 1) % UINT_MOD) := by
  rw [find_tallyKey, if_pos rfl]
  cases UMap.find m k <;> rfl

/-- C7 (amended). In both tally builders a key is inserted with count 1 on its
first observation and afterwards incremented in 32-bit `unsigned` arithmetic
(the new count is the old count plus one, modulo `2 ^ 32`).  For a `lenpick`
input with fewer than `2 ^ 32` classification lines, and for an `smr` input of
fewer than `2 ^ 32` lines that fit the line buffer, every key present in the
resulting map has count at least 1. -/
theorem tally_counts_positive_below_wrap (fastq sam : List (List Char))
    (hfastq : (fastq.length + 2) / 4 < UINT_MOD)
    (hfit : ∀ l ∈ sam, FitsBuffer l = true) (hsam : sam.length < UINT_MOD) :
    (∀ k c, UMap.find (lendistOf fastq) k = some c → 1 ≤ c) ∧
      (∃ r, readTally (unlines sam) = some r ∧
        ∀ t, r = Except.ok t → ∀ k c, UMap.find t k = some c → 1 ≤ c) ∧
      (∀ (m : UMap Nat) (k : Nat), UMap.find (tallyKey m k) k =
        some (match UMap.find m k with
          | none => 1
          | some c => (c + 1) % UINT_MOD)) ∧
      (∀ (m : UMap (List Char)) (k : List Char), UMap.find (tallyKey m k) k =
        some (match UMap.find m k with
          | none => 1
          | some c => (c + 1) % UINT_MOD)) := by
  refine ⟨?_, ?_, fun m k => find_tallyKey_self m k, fun m k => find_tallyKey_self m k⟩
  · intro k c h
    exact (lendistOf_counts_pos fastq hfastq k c h).1
  · refine ⟨perLine sam [], readTally_unlines sam hfit, ?_⟩
    intro t ht k c h
    have hr : readTally (unlines sam) = some (Except.ok t) := by
      rw [readTally_unlines sam hfit, ht]
    exact (readTally_counts_pos sam hfit hsam t hr k c h).1

/-- Witness for C7: a `lenpick` file of three records and the `smr` lines of
scenario C. -/
theorem tally_counts_positive_below_wrap_witness :
    ((fastqOfLengths [50, 50, 48]).length + 2) / 4 < UINT_MOD ∧
      (∀ l ∈ scenarioC, FitsBuffer l = true) ∧ scenarioC.length < UINT_MOD ∧
      lendistOf (fastqOfLengths [50, 50, 48]) = [(50, 2), (48, 1)] ∧
      readTally (unlines scenarioC) = some (Except.ok [("chrA".toList, 2)]) ∧
      ((∀ k c, UMap.find (lendistOf (fastqOfLengths [50, 50, 48])) k = some c → 1 ≤ c) ∧
        (∃ r, readTally (unlines scenarioC) = some r ∧
          ∀ t, r = Except.ok t → ∀ k c, UMap.find t k = some c → 1 ≤ c) ∧
        (∀ (m : UMap Nat) (k : Nat), UMap.find (tallyKey m k) k =
          some (match UMap.find m k with
            | none => 1
            | some c => (c + 1) % UINT_MOD)) ∧
        (∀ (m : UMap (List Char)) (k : List Char), UMap.find (tallyKey m k) k =
          some (match UMap.find m k with
            | none => 1
            | some c => (c + 1) % UINT_MOD))) :=
  ⟨by decide, by decide, by decide, by decide, by decide,
    tally_counts_positive_below_wrap (fastqOfLengths [50, 50, 48]) scenarioC (by decide)
      (by decide) (by decide)⟩

theorem filterMap_recordKey_replicate (n : Nat) (l k : List Char) (h : recordKey l = some k) :
    (List.replicate n l).filterMap recordKey = List.replicate n k := by
  induction n with
  | zero => rfl
  | succ n ih => simp [List.replicate_succ, List.filterMap_cons, h, ih]

theorem smr_count_wraps (n : Nat) (l k : List Char) (hfit : FitsBuffer l = true)
    (hwf : WellFormedRecord l = true) (hk : recordKey l = some k) (hn : n ≠ 0) :
    ∃ t, readTally (unlines (List.replicate n l)) = some (Except.ok t) ∧
      UMap.find t k = some (n % UINT_MOD) := by
  obtain ⟨t, h1, _, h3⟩ := smr_tally_mod (List.replicate n l)
    (fun x hx => by rw [List.eq_of_mem_replicate hx]; exact hfit)
    (fun x hx _ => by rw [List.eq_of_mem_replicate hx]; exact hwf)
  refine ⟨t, h1, ?_⟩
  have hc : recordCount (List.replicate n l) k = n := by
    rw [← count_filterMap_recordKey, filterMap_recordKey_replicate n l k hk]
    exact @List.count_replicate_self (List Char) instBEqOfDecidableEq inferInstance k n
  rw [h3 k, hc, if_neg hn]

/-- C7 as stated fails. After `2 ^ 32` classification lines of length 0 the
`lenpick` map holds the key 0 with count 0, and after `2 ^ 32` mapped records of
molecule `chrA` the `ReadTally` holds the key `chrA` with count 0: the counter is
a 32-bit `unsigned`, not an unbounded positive integer. -/
theorem tally_count_wraps_to_zero :
    UMap.find (lendistOf (fastqOfLengths (List.replicate 4294967296 0))) 0 = some 0 ∧
      ∃ t, readTally (unlines (List.replicate 4294967296 "r\t0\tchrA".toList)) =
          some (Except.ok t) ∧
        UMap.find t "chrA".toList = some 0 :=
  ⟨lenpick_count_wraps,
    smr_count_wraps 4294967296 "r\t0\tchrA".toList "chrA".toList (by decide) (by decide)
      (by decide) (by decide)⟩

theorem optionLoop_no_d (opts : List (Char × List Char)) (st : OptionState)
    (h : ∀ o ∈ opts, o.1 ≠ 'd' ∧ o.1 ≠ 'h') :
    ∃ fin, optionLoop opts st = some fin ∧ fin.delim = st.delim ∧
      fin.warnings = st.warnings := by
  induction opts generalizing st with
  | nil => exact ⟨st, rfl, rfl, rfl⟩
  | cons o rest ih =>
    obtain ⟨opt, optarg⟩ := o
    have ho := h (opt, optarg) (List.mem_cons_self _ _)
    have hr : ∀ o ∈ rest, o.1 ≠ 'd' ∧ o.1 ≠ 'h' := fun x hx => h x (List.mem_cons_of_mem _ hx)
    simp only at ho
    by_cases h3 : opt = 'o'
    · obtain ⟨fin, h1, h2, h4⟩ := ih (OptionState.mk st.delim optarg st.warnings st.errors) hr
      exact ⟨fin, by simp [optionLoop, ho.1, ho.2, h3, h1], h2, h4⟩
    · obtain ⟨fin, h1, h2, h4⟩ :=
        ih (OptionState.mk st.delim st.outfile st.warnings (st.errors + 1)) hr
      exact ⟨fin, by simp [optionLoop, ho.1, ho.2, h3, h1], h2, h4⟩

theorem optionLoop_append (pre post : List (Char × List Char)) (st : OptionState)
    (h : ∀ o ∈ pre, o.1 ≠ 'h') :
    ∃ mid, optionLoop pre st = some mid ∧
      optionLoop (pre ++ post) st = optionLoop post mid := by
  induction pre generalizing st with
  | nil => exact ⟨st, rfl, rfl⟩
  | cons o rest ih =>
    obtain ⟨opt, optarg⟩ := o
    have ho := h (opt, optarg) (List.mem_cons_self _ _)
    have hr : ∀ o ∈ rest, o.1 ≠ 'h' := fun x hx => h x (List.mem_cons_of_mem _ hx)
    simp only at ho
    by_cases h1 : opt = 'd'
    · obtain ⟨mid, m1, m2⟩ := ih (OptionState.mk (firstChar (delimArg optarg)) st.outfile
        (st.warnings + (if delimWarning optarg then 1 else 0)) st.errors) hr
      exact ⟨mid, by simp [optionLoop, h1, m1], by simp [optionLoop, h1, m2]⟩
    · by_cases h3 : opt = 'o'
      · obtain ⟨mid, m1, m2⟩ := ih (OptionState.mk st.delim optarg st.warnings st.errors) hr
        exact ⟨mid, by simp [optionLoop, h1, ho, h3, m1], by simp [optionLoop, h1, ho, h3, m2]⟩
      · obtain ⟨mid, m1, m2⟩ :=
          ih (OptionState.mk st.delim st.outfile st.warnings (st.errors + 1)) hr
        exact ⟨mid, by simp [optionLoop, h1, ho, h3, m1], by simp [optionLoop, h1, ho, h3, m2]⟩

/-- C11. Delimiter option: when no `-d` is given the delimiter is a comma.  When
the last `-d` has the argument `s`, the delimiter is the tab character if `s` is
exactly backslash followed by `t`, and otherwise the first character of `s` (the
terminating NUL of the C string if `s` is empty); that `-d` writes a warning
exactly when `s` is not the escape and is longer than one character, and the
loop goes on to the end of the options without aborting. -/
theorem delimiter_option (opts pre post : List (Char × List Char)) (s : List Char)
    (hopts : ∀ o ∈ opts, o.1 ≠ 'd' ∧ o.1 ≠ 'h') (hpre : ∀ o ∈ pre, o.1 ≠ 'h')
    (hpost : ∀ o ∈ post, o.1 ≠ 'd' ∧ o.1 ≠ 'h') :
    (∃ fin, optionLoop opts initialOptions = some fin ∧ fin.delim = ',' ∧
        fin.warnings = 0) ∧
      (∃ mid fin, optionLoop pre initialOptions = some mid ∧
        optionLoop (pre ++ ('d', s) :: post) initialOptions = some fin ∧
        fin.delim = (if s = ['\\', 't'] then '\t' else firstChar s) ∧
        (s ≠ [] → s ≠ ['\\', 't'] → s.head? = some fin.delim) ∧
        fin.warnings = mid.warnings + (if s ≠ ['\\', 't'] ∧ s.length > 1 then 1 else 0)) := by
  constructor
  · obtain ⟨fin, h1, h2, h3⟩ := optionLoop_no_d opts initialOptions hopts
    exact ⟨fin, h1, h2, h3⟩
  · obtain ⟨mid, m1, m2⟩ := optionLoop_append pre (('d', s) :: post) initialOptions hpre
    obtain ⟨fin, f1, f2, f3⟩ := optionLoop_no_d post
      (OptionState.mk (firstChar (delimArg s)) mid.outfile
        (mid.warnings + (if delimWarning s then 1 else 0)) mid.errors) hpost
    have hd : firstChar (delimArg s) = (if s = ['\\', 't'] then '\t' else firstChar s) := by
      unfold delimArg
      by_cases e : s = ['\\', 't']
      · simp [e, firstChar]
      · simp [e]
    refine ⟨mid, fin, m1, ?_, ?_, ?_, ?_⟩
    · rw [m2]
      simp only [optionLoop, if_true]
      exact f1
    · rw [f2]; exact hd
    · intro hne hesc
      rw [f2, hd, if_neg hesc]
      cases s with
      | nil => exact absurd rfl hne
      | cons c cs => rfl
    · rw [f3]
      simp only [delimWarning]
      by_cases e : s = ['\\', 't']
      · simp [e]
      · by_cases e2 : s.length > 1
        · simp [e, e2]
        · simp [e, e2]

/-- Witness for C11: an `-o` option alone leaves the comma; the options `-d` with the
tab escape, `-d ;;` and `-o out.csv` end with the delimiter `;` and one warning. -/
theorem delimiter_option_witness :
    (∀ o ∈ [('o', "out.csv".toList)], o.1 ≠ 'd' ∧ o.1 ≠ 'h') ∧
      (∀ o ∈ [('d', "\\t".toList)], o.1 ≠ 'h') ∧
      (∀ o ∈ [('o', "out.csv".toList)], o.1 ≠ 'd' ∧ o.1 ≠ 'h') ∧
      optionLoop ([('d', "\\t".toList)] ++ ('d', ";;".toList) :: [('o', "out.csv".toList)])
          initialOptions =
        some (OptionState.mk ';' "out.csv".toList 1 0) ∧
      ((∃ fin, optionLoop [('o', "out.csv".toList)] initialOptions = some fin ∧
          fin.delim = ',' ∧ fin.warnings = 0) ∧
        (∃ mid fin, optionLoop [('d', "\\t".toList)] initialOptions = some mid ∧
          optionLoop ([('d', "\\t".toList)] ++ ('d', ";;".toList) ::
            [('o', "out.csv".toList)]) initialOptions = some fin ∧
          fin.delim = (if ";;".toList = ['\\', 't'] then '\t' else firstChar ";;".toList) ∧
          (";;".toList ≠ [] → ";;".toList ≠ ['\\', 't'] →
            ";;".toList.head? = some fin.delim) ∧
          fin.warnings = mid.warnings +
            (if ";;".toList ≠ ['\\', 't'] ∧ ";;".toList.length > 1 then 1 else 0))) :=
  ⟨by decide, by decide, by decide, by decide,
    delimiter_option [('o', "out.csv".toList)] [('d', "\\t".toList)]
      [('o', "out.csv".toList)] ";;".toList (by decide) (by decide) (by decide)⟩

/-- C12 (the code departs from the claim). A non-header line without the
expected fields is not dropped: on the empty second line of the first input, and
on the two-field second line of the third input, a `strtok` call returns a null
pointer that is passed on (to `atoi`, to the `std::string` constructor), which is
undefined behaviour; the same input without the malformed line gives the tally
with `chrA` counted twice. -/
theorem malformed_record_is_not_recovered :
    readTally "r1\t0\tchrA\n\nr2\t0\tchrA\n".toList = some (Except.error Fault.nullToken) ∧
      readTally "r1\t0\tchrA\nr2\t0\tchrA\n".toList =
        some (Except.ok [("chrA".toList, 2)]) ∧
      splitTabs "r2\t0".toList = ["r2".toList, "0".toList] ∧
      readTally "r1\t0\tchrA\nr2\t0\nr3\t0\tchrA\n".toList =
        some (Except.error Fault.nullToken) ∧
      readTally "r1\t0\tchrA\nr3\t0\tchrA\n".toList = some (Except.ok [("chrA".toList, 2)]) :=
  ⟨by decide, by decide, by decide, by decide, by decide⟩

theorem forall2_mem_left {α β : Type} {R : α → β → Prop} {l1 : List α} {l2 : List β}
    (h : List.Forall₂ R l1 l2) (a : α) (ha : a ∈ l1) : ∃ b ∈ l2, R a b := by
  induction h with
  | nil => simp at ha
  | cons hab _ ih =>
    rcases List.mem_cons.1 ha with e | e
    · exact ⟨_, List.mem_cons_self _ _, e ▸ hab⟩
    · obtain ⟨b, hb, hr⟩ := ih e
      exact ⟨b, List.mem_cons_of_mem _ hb, hr⟩

theorem forall2_mem_right {α β : Type} {R : α → β → Prop} {l1 : List α} {l2 : List β}
    (h : List.Forall₂ R l1 l2) (b : β) (hb : b ∈ l2) : ∃ a ∈ l1, R a b := by
  induction h with
  | nil => simp at hb
  | cons hab _ ih =>
    rcases List.mem_cons.1 hb with e | e
    · exact ⟨_, List.mem_cons_self _ _, e ▸ hab⟩
    · obtain ⟨a, ha, hr⟩ := ih e
      exact ⟨a, List.mem_cons_of_mem _ ha, hr⟩

theorem lenpickMain_min (order : UMap Nat → List (Nat × Nat)) (horder : IterOrder order)
    (files : List (List (List Char))) (hne : files ≠ [])
    (hcls : ∀ f ∈ files, 2 ≤ f.length) :
    ∃ m, lenpickMain order files = Except.ok (LenpickOutput.minpeak m) ∧
      (∃ f ∈ files, filePeak order f = Except.ok m) ∧
      ∀ f ∈ files, ∀ p, filePeak order f = Except.ok p → m ≤ p := by
  obtain ⟨peaks, hps, hc⟩ := collectPeaks_spec order horder files [] hcls
  have hpne : peaks ≠ [] := by
    intro e
    rw [e] at hps
    cases hps
    exact hne rfl
  obtain ⟨m, hm, hmem, hle⟩ := minElement_spec peaks hpne
  refine ⟨m, ?_, ?_, ?_⟩
  · match files, hne with
    | f :: fs, _ => simp only [lenpickMain, hc, List.nil_append, hm]
  · obtain ⟨f, hf, hr⟩ := forall2_mem_right hps m hmem
    exact ⟨f, hf, hr⟩
  · intro f hf p hp
    obtain ⟨q, hq, hr⟩ := forall2_mem_left hps f hf
    rw [hp] at hr
    cases hr
    exact hle p hq

/-- C13. Min-of-peaks is independent of the input file order: for every non-empty
list of input files, each with at least one classification line (two lines or
more), and every permutation of that list, `lenpick` prints the same integer. -/
theorem lenpick_file_order_irrelevant (order : UMap Nat → List (Nat × Nat))
    (horder : IterOrder order) (files files' : List (List (List Char))) (hne : files ≠ [])
    (hcls : ∀ f ∈ files, 2 ≤ f.length) (hperm : files'.Perm files) :
    ∃ m, lenpickMain order files = Except.ok (LenpickOutput.minpeak m) ∧
      lenpickMain order files' = Except.ok (LenpickOutput.minpeak m) := by
  have hne' : files' ≠ [] := by
    intro e
    rw [e] at hperm
    exact hne (List.Perm.nil_eq hperm).symm
  have hcls' : ∀ f ∈ files', 2 ≤ f.length := fun f hf => hcls f (hperm.mem_iff.1 hf)
  obtain ⟨m, h1, ⟨f, hf, hfp⟩, h3⟩ := lenpickMain_min order horder files hne hcls
  obtain ⟨m', h1', ⟨f', hf', hfp'⟩, h3'⟩ := lenpickMain_min order horder files' hne' hcls'
  have a : m ≤ m' := h3 f' (hperm.mem_iff.1 hf') m' hfp'
  have b : m' ≤ m := h3' f (hperm.mem_iff.2 hf) m hfp
  have e : m' = m := le_antisymm b a
  exact ⟨m, h1, by rw [h1', e]⟩

/-- Witness for C13: the two files of scenario B in both orders; `lenpick` prints 48. -/
theorem lenpick_file_order_irrelevant_witness :
    IterOrder (fun m : UMap Nat => m) ∧
      [fastqOfLengths [52], fastqOfLengths [48, 48, 52]] ≠ [] ∧
      (∀ f ∈ [fastqOfLengths [52], fastqOfLengths [48, 48, 52]], 2 ≤ f.length) ∧
      List.Perm [fastqOfLengths [48, 48, 52], fastqOfLengths [52]]
        [fastqOfLengths [52], fastqOfLengths [48, 48, 52]] ∧
      lenpickMain (fun m => m) [fastqOfLengths [48, 48, 52], fastqOfLengths [52]] =
        Except.ok (LenpickOutput.minpeak 48) ∧
      ∃ m,
        lenpickMain (fun m => m) [fastqOfLengths [52], fastqOfLengths [48, 48, 52]] =
          Except.ok (LenpickOutput.minpeak m) ∧
        lenpickMain (fun m => m) [fastqOfLengths [48, 48, 52], fastqOfLengths [52]] =
          Except.ok (LenpickOutput.minpeak m) :=
  ⟨fun m => List.Perm.refl m, by simp, by decide, List.Perm.swap _ _ _, by rfl,
    lenpick_file_order_irrelevant (fun m => m) (fun m => List.Perm.refl m)
      [fastqOfLengths [52], fastqOfLengths [48, 48, 52]]
      [fastqOfLengths [48, 48, 52], fastqOfLengths [52]] (by simp) (by decide)
      (List.Perm.swap _ _ _)⟩

theorem peakLoop_first_max (es : List (Nat × Nat)) (b : Nat × Nat) :
    (peakLoop es (some b) = some b ∧ ∀ e ∈ es, e.2 ≤ b.2) ∨
      ∃ pre p post, es = pre ++ p :: post ∧ peakLoop es (some b) = some p ∧
        b.2 < p.2 ∧ (∀ e ∈ pre, e.2 < p.2) ∧ ∀ e ∈ post, e.2 ≤ p.2 := by
  induction es generalizing b with
  | nil => left; exact ⟨rfl, by simp⟩
  | cons e es ih =>
    by_cases hgt : e.2 > b.2
    · have hstep : peakLoop (e :: es) (some b) = peakLoop es (some e) := by
        simp [peakLoop, hgt]
      rcases ih e with ⟨h1, h2⟩ | ⟨pre, p, post, h1, h2, h3, h4, h5⟩
      · right
        exact ⟨[], e, es, rfl, by rw [hstep, h1], hgt, by simp, h2⟩
      · right
        refine ⟨e :: pre, p, post, by rw [h1]; rfl, by rw [hstep, h2], by omega, ?_, h5⟩
        intro x hx
        rcases List.mem_cons.1 hx with e1 | e1
        · rw [e1]; exact h3
        · exact h4 x e1
    · have hstep : peakLoop (e :: es) (some b) = peakLoop es (some b) := by
        simp [peakLoop, hgt]
      rcases ih b with ⟨h1, h2⟩ | ⟨pre, p, post, h1, h2, h3, h4, h5⟩
      · left
        refine ⟨by rw [hstep, h1], ?_⟩
        intro x hx
        rcases List.mem_cons.1 hx with e1 | e1
        · rw [e1]; omega
        · exact h2 x e1
      · right
        refine ⟨e :: pre, p, post, by rw [h1]; rfl, by rw [hstep, h2], h3, ?_, h5⟩
        intro x hx
        rcases List.mem_cons.1 hx with e1 | e1
        · rw [e1]; omega
        · exact h4 x e1

/-- C14. Tie-break of peak selection: for every non-empty sequence of entries in
iteration order, the selected entry is the first entry of the sequence whose
count equals the maximum count (every earlier entry has a strictly smaller count,
no later entry a greater one); and one turn of the loop replaces the running best
exactly when the count of the entry is strictly greater, never when it is equal. -/
theorem peak_tie_break_first_wins (entries : List (Nat × Nat)) (hne : entries ≠ []) :
    (∃ pre p post, entries = pre ++ p :: post ∧ selectPeak entries = some p ∧
        (∀ e ∈ pre, e.2 < p.2) ∧ ∀ e ∈ post, e.2 ≤ p.2) ∧
      ∀ (iter best : Nat × Nat) (rest : List (Nat × Nat)),
        peakLoop (iter :: rest) (some best) =
          peakLoop rest (some (if best.2 < iter.2 then iter else best)) := by
  constructor
  · match entries, hne with
    | e :: es, _ =>
      have hstep : selectPeak (e :: es) = peakLoop es (some e) := rfl
      rcases peakLoop_first_max es e with ⟨h1, h2⟩ | ⟨pre, p, post, h1, h2, h3, h4, h5⟩
      · exact ⟨[], e, es, rfl, by rw [hstep, h1], by simp, h2⟩
      · refine ⟨e :: pre, p, post, by rw [h1]; rfl, by rw [hstep, h2], ?_, h5⟩
        intro x hx
        rcases List.mem_cons.1 hx with e1 | e1
        · rw [e1]; exact h3
        · exact h4 x e1
  · intro iter best rest
    by_cases h : best.2 < iter.2
    · simp [peakLoop, h]
    · simp [peakLoop, h]

/-- Witness for C14: with the counts 3, 4, 4, 1 the second entry wins, whichever key
it carries. -/
theorem peak_tie_break_first_wins_witness :
    ([(50, 3), (48, 4), (47, 4), (46, 1)] : List (Nat × Nat)) ≠ [] ∧
      selectPeak [(50, 3), (48, 4), (47, 4), (46, 1)] = some (48, 4) ∧
      selectPeak [(50, 3), (47, 4), (48, 4), (46, 1)] = some (47, 4) ∧
      ((∃ pre p post, [(50, 3), (48, 4), (47, 4), (46, 1)] = pre ++ p :: post ∧
          selectPeak [(50, 3), (48, 4), (47, 4), (46, 1)] = some p ∧
          (∀ e ∈ pre, e.2 < p.2) ∧ ∀ e ∈ post, e.2 ≤ p.2) ∧
        ∀ (iter best : Nat × Nat) (rest : List (Nat × Nat)),
          peakLoop (iter :: rest) (some best) =
            peakLoop rest (some (if best.2 < iter.2 then iter else best))) :=
  ⟨by simp, by decide, by decide,
    peak_tie_break_first_wins [(50, 3), (48, 4), (47, 4), (46, 1)] (by simp)⟩

theorem find_le_totalCount (m : UMap K) (k : K) (c : Nat) (h : UMap.find m k = some c) :
    c ≤ totalCount m := by
  induction m with
  | nil => simp [UMap.find] at h
  | cons e m ih =>
    obtain ⟨a, b⟩ := e
    by_cases h2 : a = k
    · simp [UMap.find, h2] at h
      simp [totalCount, h]
    · simp [UMap.find, h2] at h
      have := ih h
      simp only [totalCount, List.map_cons, List.sum_cons] at this ⊢
      omega

theorem totalCount_incr (m : UMap K) (k : K) (c : Nat) (h : UMap.find m k = some c)
    (hc : c + 1 < UINT_MOD) : totalCount (UMap.incr m k) = totalCount m + 1 := by
  induction m with
  | nil => simp [UMap.find] at h
  | cons e m ih =>
    obtain ⟨a, b⟩ := e
    by_cases h2 : a = k
    · simp [UMap.find, h2] at h
      subst h
      simp only [UMap.incr, h2, if_true, totalCount, List.map_cons, List.sum_cons,
        Nat.mod_eq_of_lt hc]
      omega
    · simp [UMap.find, h2] at h
      have := ih h
      simp only [UMap.incr, h2, if_false, totalCount, List.map_cons, List.sum_cons] at this ⊢
      omega

theorem totalCount_tallyKey (m : UMap K) (k : K) (h : totalCount m + 1 < UINT_MOD) :
    totalCount (tallyKey m k) = totalCount m + 1 := by
  unfold tallyKey
  cases hf : UMap.find m k with
  | none => simp [UMap.emplace, hf, totalCount]
  | some c =>
    have := find_le_totalCount m k c hf
    exact totalCount_incr m k c hf (by omega)

theorem totalCount_foldl (ks : List K) (m : UMap K)
    (h : totalCount m + ks.length < UINT_MOD) :
    totalCount (ks.foldl tallyKey m) = totalCount m + ks.length := by
  induction ks generalizing m with
  | nil => rfl
  | cons a ks ih =>
    simp only [List.length_cons] at h
    have h1 := totalCount_tallyKey m a (by omega)
    rw [List.foldl_cons, ih _ (by rw [h1]; omega), h1, List.length_cons]
    omega

theorem foldl_tallyKey_replicate (n : Nat) (k : K) (v : Nat) (hv : v < UINT_MOD) :
    (List.replicate n k).foldl tallyKey [(k, v)] = [(k, (v + n) % UINT_MOD)] := by
  induction n generalizing v with
  | zero => simp [Nat.mod_eq_of_lt hv]
  | succ n ih =>
    have hstep : tallyKey [(k, v)] k = [(k, (v + 1) % UINT_MOD)] := by
      simp [tallyKey, UMap.find, UMap.incr]
    rw [List.replicate_succ, List.foldl_cons, hstep, ih _ (Nat.mod_lt _ (by decide))]
    congr 2
    rw [Nat.add_mod, Nat.mod_mod, ← Nat.add_mod]
    congr 1; omega

theorem length_fastqOfLengths (ns : List Nat) :
    (fastqOfLengths ns).length = 4 * ns.length := by
  induction ns with
  | nil => rfl
  | cons n ns ih => simp only [fastqOfLengths, List.length_cons, ih]; omega

theorem count_class_positions (lines : List (List Char)) (i : Nat) :
    ((lines.enumFrom i).filter (fun p => decide (p.1 % 4 = 1))).length =
      (lines.length + (i + 2) % 4) / 4 := by
  induction lines generalizing i with
  | nil => simp
  | cons l ls ih =>
    simp only [List.enumFrom_cons, List.filter_cons, List.length_cons]
    by_cases h : i % 4 = 1
    · simp only [h, decide_True, if_true, List.length_cons, ih]; omega
    · simp only [h, decide_False, Bool.false_eq_true, if_false, ih]
      omega

theorem lendistOf_same_length (n : Nat) (k : Nat) (hk : k < UINT_MOD) (hn : n ≠ 0) :
    lendistOf (fastqOfLengths (List.replicate n k)) = [(k, n % UINT_MOD)] := by
  rw [lendistOf_fastq, List.map_replicate, Nat.mod_eq_of_lt hk]
  cases n with
  | zero => exact absurd rfl hn
  | succ n =>
    have h1 : tallyKey ([] : UMap Nat) k = [(k, 1)] := by
      simp [tallyKey, UMap.find, UMap.emplace]
    rw [List.replicate_succ, List.foldl_cons, h1, foldl_tallyKey_replicate n k 1 (by decide)]
    congr 2
    congr 1; omega

/-- C16 (amended). Count conservation in `lenpick`: an input of `n` lines has
`(n + 2) / 4` classification lines, and when that number is below `2 ^ 32` the
sum of all counts in the length tally equals it; an input with fewer than 2
lines yields an empty tally, and an input with 2 to 5 lines yields a tally with
exactly one key, of count 1. -/
theorem lenpick_count_conservation (lines : List (List Char))
    (h : (lines.length + 2) / 4 < UINT_MOD) :
    (lines.enum.filter (fun p => decide (p.1 % 4 = 1))).length = (lines.length + 2) / 4 ∧
      totalCount (lendistOf lines) = (lines.length + 2) / 4 ∧
      (lines.length < 2 → lendistOf lines = []) ∧
      (2 ≤ lines.length → lines.length ≤ 5 → ∃ k, lendistOf lines = [(k, 1)]) := by
  refine ⟨?_, ?_, lendistOf_short lines, ?_⟩
  · have := count_class_positions lines 0
    simpa [List.enum] using this
  · have hl := length_classKeys lines 0
    simp only [Nat.zero_add, Nat.reduceMod] at hl
    rw [lendistOf_eq_foldl, totalCount_foldl _ _ (by rw [hl]; simpa [totalCount] using h), hl]
    simp [totalCount]
  · intro h2 h5
    match lines, h2, h5 with
    | [a, b], _, _ => exact ⟨_, rfl⟩
    | [a, b, c], _, _ => exact ⟨_, rfl⟩
    | [a, b, c, d], _, _ => exact ⟨_, rfl⟩
    | [a, b, c, d, e], _, _ => exact ⟨_, rfl⟩
    | _ :: _ :: _ :: _ :: _ :: _ :: _, _, h5 => simp at h5

/-- Witness for C16: a file of three records (12 lines) has three classification
lines and the tally `50:2, 48:1`. -/
theorem lenpick_count_conservation_witness :
    ((fastqOfLengths [50, 50, 48]).length + 2) / 4 < UINT_MOD ∧
      lendistOf (fastqOfLengths [50, 50, 48]) = [(50, 2), (48, 1)] ∧
      (((fastqOfLengths [50, 50, 48]).enum.filter (fun p => decide (p.1 % 4 = 1))).length =
          ((fastqOfLengths [50, 50, 48]).length + 2) / 4 ∧
        totalCount (lendistOf (fastqOfLengths [50, 50, 48])) =
          ((fastqOfLengths [50, 50, 48]).length + 2) / 4 ∧
        ((fastqOfLengths [50, 50, 48]).length < 2 →
          lendistOf (fastqOfLengths [50, 50, 48]) = []) ∧
        (2 ≤ (fastqOfLengths [50, 50, 48]).length → (fastqOfLengths [50, 50, 48]).length ≤ 5 →
          ∃ k, lendistOf (fastqOfLengths [50, 50, 48]) = [(k, 1)])) :=
  ⟨by decide, by decide, lenpick_count_conservation (fastqOfLengths [50, 50, 48]) (by decide)⟩

/-- C16 as stated fails. An input of `4 * 2 ^ 32` lines whose classification lines
all have length 0 has `2 ^ 32` classification lines, but its tally is the single
entry `0:0` and the sum of its counts is 0: the count is a 32-bit `unsigned` and
has wrapped. -/
theorem lenpick_count_sum_counterexample :
    ((fastqOfLengths (List.replicate 4294967296 0)).length + 2) / 4 = 4294967296 ∧
      lendistOf (fastqOfLengths (List.replicate 4294967296 0)) = [(0, 0)] ∧
      totalCount (lendistOf (fastqOfLengths (List.replicate 4294967296 0))) = 0 := by
  have hd := lendistOf_same_length 4294967296 0 (by decide) (by decide)
  have hm : 4294967296 % UINT_MOD = 0 := by decide
  rw [hm] at hd
  refine ⟨?_, hd, ?_⟩
  · rw [length_fastqOfLengths, List.length_replicate]
  · rw [hd]; rfl

theorem linesOf_cons (c : Char) (cs : List Char) :
    linesOf (c :: cs) =
      if c = '\n' then [] :: linesOf cs
      else
        match linesOf cs with
        | [] => [[c]]
        | l :: ls => (c :: l) :: ls := rfl

theorem linesOf_terminated_ne_nil (body : List Char) : linesOf (body ++ ['\n']) ≠ [] := by
  cases body with
  | nil => simp [linesOf]
  | cons c cs =>
    rw [List.cons_append, linesOf_cons]
    by_cases h : c = '\n'
    · simp [h]
    · rw [if_neg h]
      split <;> simp

theorem linesOf_append (body rest : List Char) :
    linesOf (body ++ '\n' :: rest) = linesOf (body ++ ['\n']) ++ linesOf rest := by
  induction body with
  | nil => simp [linesOf]
  | cons c cs ih =>
    rw [List.cons_append, List.cons_append, linesOf_cons, linesOf_cons, ih]
    by_cases h : c = '\n'
    · rw [if_pos h, if_pos h]
      rfl
    · rw [if_neg h, if_neg h]
      cases hl : linesOf (cs ++ ['\n']) with
      | nil => exact absurd hl (linesOf_terminated_ne_nil cs)
      | cons l ls => rfl

theorem linesOf_flatten (rows : List (List Char))
    (h : ∀ r ∈ rows, ∃ body, r = body ++ ['\n']) :
    linesOf rows.flatten = (rows.map linesOf).flatten := by
  induction rows with
  | nil => rfl
  | cons r rs ih =>
    obtain ⟨body, hb⟩ := h r (List.mem_cons_self _ _)
    rw [List.flatten_cons, List.map_cons, List.flatten_cons, hb, List.append_assoc,
      List.singleton_append, linesOf_append,
      ih (fun x hx => h x (List.mem_cons_of_mem _ hx))]

theorem printRow_terminated (delim : Char) (tallies : List (UMap (List Char)))
    (molid : List Char) : ∃ body, printRow delim tallies molid = body ++ ['\n'] :=
  ⟨cString molid ++ [delim] ++ printCounts delim molid tallies false, rfl⟩

theorem linesOf_print (mapOrder : UMap (List Char) → List (List Char × Nat))
    (setOrder : List (List Char) → List (List Char))
    (tallies : List (UMap (List Char))) (delim : Char) :
    linesOf (print mapOrder setOrder tallies delim) =
      ((setOrder (collectMolids mapOrder tallies [])).flatMap
        (fun k => linesOf (printRow delim tallies k))) := by
  unfold print
  rw [linesOf_flatten, List.map_map, List.flatMap]
  · rfl
  · intro r hr
    obtain ⟨k, _, hk⟩ := List.mem_map.1 hr
    rw [← hk]
    exact printRow_terminated delim tallies k

theorem molids_perm (mapOrder1 mapOrder2 : UMap (List Char) → List (List Char × Nat))
    (setOrder1 setOrder2 : List (List Char) → List (List Char))
    (hm1 : IterOrder mapOrder1) (hm2 : IterOrder mapOrder2)
    (hs1 : ∀ s, (setOrder1 s).Perm s) (hs2 : ∀ s, (setOrder2 s).Perm s)
    (tallies : List (UMap (List Char))) :
    (setOrder1 (collectMolids mapOrder1 tallies [])).Perm
      (setOrder2 (collectMolids mapOrder2 tallies [])) := by
  have n1 := nodup_collectMolids mapOrder1 tallies [] List.nodup_nil
  have n2 := nodup_collectMolids mapOrder2 tallies [] List.nodup_nil
  have hp : (collectMolids mapOrder1 tallies []).Perm (collectMolids mapOrder2 tallies []) := by
    rw [List.perm_ext_iff_of_nodup n1 n2]
    intro k
    rw [mem_molids_iff mapOrder1 hm1, mem_molids_iff mapOrder2 hm2]
  exact ((hs1 _).trans hp).trans (hs2 _).symm

theorem print_lines_perm (mapOrder1 mapOrder2 : UMap (List Char) → List (List Char × Nat))
    (setOrder1 setOrder2 : List (List Char) → List (List Char))
    (hm1 : IterOrder mapOrder1) (hm2 : IterOrder mapOrder2)
    (hs1 : ∀ s, (setOrder1 s).Perm s) (hs2 : ∀ s, (setOrder2 s).Perm s)
    (tallies : List (UMap (List Char))) (delim : Char) :
    (linesOf (print mapOrder1 setOrder1 tallies delim)).Perm
      (linesOf (print mapOrder2 setOrder2 tallies delim)) := by
  rw [linesOf_print, linesOf_print]
  exact List.Perm.flatMap_right _
    (molids_perm mapOrder1 mapOrder2 setOrder1 setOrder2 hm1 hm2 hs1 hs2 tallies)

theorem selectPeak_unique_max (order : UMap Nat → List (Nat × Nat)) (horder : IterOrder order)
    (t : UMap Nat) (hwf : t.WF) (L c : Nat) (hL : UMap.find t L = some c)
    (huniq : ∀ k' c', UMap.find t k' = some c' → k' ≠ L → c' < c) :
    selectPeak (order t) = some (L, c) := by
  have hmemL : (L, c) ∈ order t := (horder t).mem_iff.2 (mem_of_find_eq_some t L c hL)
  have hne : order t ≠ [] := List.ne_nil_of_mem hmemL
  obtain ⟨p, hp, hmem, hmax⟩ := selectPeak_spec _ hne
  have hpf : UMap.find t p.1 = some p.2 :=
    find_eq_some_of_mem t hwf p.1 p.2 ((horder t).mem_iff.1 hmem)
  have hge := hmax _ hmemL
  have hkey : p.1 = L := by
    by_contra hk
    have := huniq p.1 p.2 hpf hk
    simp only at hge
    omega
  have hval : p.2 = c := by
    rw [hkey, hL] at hpf
    exact (Option.some.inj hpf).symm
  rw [hp]
  congr 1
  exact Prod.ext hkey hval

theorem filePeak_of_uniqueMode (order : UMap Nat → List (Nat × Nat)) (horder : IterOrder order)
    (lines : List (List Char)) (L : Nat) (h : UniqueMode lines L) :
    filePeak order lines = Except.ok L := by
  obtain ⟨hlen, hcnt, huniq⟩ := h
  have hall : ∀ L', UMap.find (lendistOf lines) L' =
      (if classCount lines L' = 0 then none else some (classCount lines L')) := by
    intro L'
    by_cases e : L' = L
    · rw [e]; exact find_lendistOf_exact lines L hlen hcnt
    · exact find_lendistOf_exact lines L' hlen (lt_trans (huniq L' e) hcnt)
  have hpos : classCount lines L ≠ 0 := by
    have := huniq (L + 1) (by omega)
    omega
  have hL : UMap.find (lendistOf lines) L = some (classCount lines L) := by
    rw [hall L, if_neg hpos]
  have hsel := selectPeak_unique_max order horder (lendistOf lines) (lendistOf_WF lines) L
    (classCount lines L) hL (by
      intro k' c' hf hk
      rw [hall k'] at hf
      by_cases h0 : classCount lines k' = 0
      · simp [h0] at hf
      · simp only [h0, if_false, Option.some.injEq] at hf
        rw [← hf]
        exact huniq k' hk)
  exact filePeak_of_lendist order lines _ L _ rfl hsel

theorem collectPeaks_congr (order1 order2 : UMap Nat → List (Nat × Nat))
    (files : List (List (List Char))) (acc : List Nat)
    (h : ∀ f ∈ files, filePeak order1 f = filePeak order2 f) :
    collectPeaks order1 files acc = collectPeaks order2 files acc := by
  induction files generalizing acc with
  | nil => rfl
  | cons f fs ih =>
    simp only [collectPeaks, h f (List.mem_cons_self _ _)]
    cases filePeak order2 f with
    | error e => rfl
    | ok p => exact ih _ (fun g hg => h g (List.mem_cons_of_mem _ hg))

theorem lenpickMain_congr (order1 order2 : UMap Nat → List (Nat × Nat))
    (files : List (List (List Char)))
    (h : ∀ f ∈ files, filePeak order1 f = filePeak order2 f) :
    lenpickMain order1 files = lenpickMain order2 files := by
  cases files with
  | nil => rfl
  | cons f fs =>
    simp only [lenpickMain, collectPeaks_congr order1 order2 (f :: fs) [] h]

theorem uniqueMode_two_lines (lines : List (List Char)) (L : Nat) (h : UniqueMode lines L) :
    2 ≤ lines.length := by
  obtain ⟨_, _, huniq⟩ := h
  by_contra hlt
  have hshort : lines.length < 2 := by omega
  have h0 : classCount lines L = 0 := by
    match lines, hshort with
    | [], _ => rfl
    | [a], _ => rfl
  have := huniq (L + 1) (by omega)
  omega

/-- C15 (amended). Output is determined by the inputs up to row order.  For every
collection of tallies read from the `smr` input files, two runs of `print` that
differ only in the iteration orders of the hash maps and of the key set write
tables whose lines are the same as a multiset (one list of lines is a
permutation of the other), so the counts in every row are identical.  For every
non-empty list of `lenpick` input files in which every file has a unique most
frequent length (classification lines shorter than `2 ^ 32` characters, fewer
than `2 ^ 32` occurrences), two runs that differ only in the iteration order of
the hash map print the same integer. -/
theorem output_determined_up_to_row_order
    (mapOrder1 mapOrder2 : UMap (List Char) → List (List Char × Nat))
    (setOrder1 setOrder2 : List (List Char) → List (List Char))
    (order1 order2 : UMap Nat → List (Nat × Nat))
    (hm1 : IterOrder mapOrder1) (hm2 : IterOrder mapOrder2)
    (hs1 : ∀ s, (setOrder1 s).Perm s) (hs2 : ∀ s, (setOrder2 s).Perm s)
    (ho1 : IterOrder order1) (ho2 : IterOrder order2)
    (tallies : List (UMap (List Char))) (delim : Char)
    (files : List (List (List Char))) (hne : files ≠ [])
    (hmode : ∀ f ∈ files, ∃ L, UniqueMode f L) :
    (linesOf (print mapOrder1 setOrder1 tallies delim)).Perm
        (linesOf (print mapOrder2 setOrder2 tallies delim)) ∧
      ∃ m, lenpickMain order1 files = Except.ok (LenpickOutput.minpeak m) ∧
        lenpickMain order2 files = Except.ok (LenpickOutput.minpeak m) := by
  refine ⟨print_lines_perm mapOrder1 mapOrder2 setOrder1 setOrder2 hm1 hm2 hs1 hs2 tallies
    delim, ?_⟩
  have hsame : ∀ f ∈ files, filePeak order1 f = filePeak order2 f := by
    intro f hf
    obtain ⟨L, hL⟩ := hmode f hf
    rw [filePeak_of_uniqueMode order1 ho1 f L hL, filePeak_of_uniqueMode order2 ho2 f L hL]
  have hcls : ∀ f ∈ files, 2 ≤ f.length := by
    intro f hf
    obtain ⟨L, hL⟩ := hmode f hf
    exact uniqueMode_two_lines f L hL
  obtain ⟨m, hm, _, _⟩ := lenpickMain_min order1 ho1 files hne hcls
  exact ⟨m, hm, by rw [← lenpickMain_congr order1 order2 files hsame, hm]⟩

theorem uniqueMode_scenarioA : UniqueMode (fastqOfLengths [50, 50, 48, 50, 48, 48, 48]) 48 :=
  ⟨by decide, by decide,
    fun L' h => by rw [classCount_fastq, classCount_fastq]; exact count_scenarioA L' h⟩

/-- Witness for C15: the tallies of scenario D and the file of scenario A, run once
in insertion order and once in the reverse order. -/
theorem output_determined_up_to_row_order_witness :
    IterOrder (fun m : UMap (List Char) => m) ∧
      IterOrder (fun m : UMap (List Char) => m.reverse) ∧
      (∀ s : List (List Char), ((fun s => s) s).Perm s) ∧
      (∀ s : List (List Char), ((fun s : List (List Char) => s.reverse) s).Perm s) ∧
      IterOrder (fun m : UMap Nat => m) ∧ IterOrder (fun m : UMap Nat => m.reverse) ∧
      [fastqOfLengths [50, 50, 48, 50, 48, 48, 48]] ≠ [] ∧
      (∀ f ∈ [fastqOfLengths [50, 50, 48, 50, 48, 48, 48]], ∃ L, UniqueMode f L) ∧
      print (fun m => m) (fun s => s) scenarioD ',' = "chrA,2,0\nchrB,1,3\nchrC,0,1\n".toList ∧
      print (fun m => m.reverse) (fun s => s.reverse) scenarioD ',' =
        "chrC,0,1\nchrA,2,0\nchrB,1,3\n".toList ∧
      ((linesOf (print (fun m => m) (fun s => s) scenarioD ',')).Perm
          (linesOf (print (fun m => m.reverse) (fun s => s.reverse) scenarioD ',')) ∧
        ∃ m,
          lenpickMain (fun m => m) [fastqOfLengths [50, 50, 48, 50, 48, 48, 48]] =
            Except.ok (LenpickOutput.minpeak m) ∧
          lenpickMain (fun m => m.reverse) [fastqOfLengths [50, 50, 48, 50, 48, 48, 48]] =
            Except.ok (LenpickOutput.minpeak m)) :=
  ⟨fun m => List.Perm.refl m, fun m => List.reverse_perm m, fun s => List.Perm.refl s,
    fun s => List.reverse_perm s, fun m => List.Perm.refl m, fun m => List.reverse_perm m,
    by simp,
    fun f hf => ⟨48, by rw [List.mem_singleton.1 hf]; exact uniqueMode_scenarioA⟩,
    by decide, by decide,
    output_determined_up_to_row_order (fun m => m) (fun m => m.reverse) (fun s => s)
      (fun s => s.reverse) (fun m => m) (fun m => m.reverse) (fun m => List.Perm.refl m)
      (fun m => List.reverse_perm m) (fun s => List.Perm.refl s)
      (fun s => List.reverse_perm s) (fun m => List.Perm.refl m)
      (fun m => List.reverse_perm m) scenarioD ','
      [fastqOfLengths [50, 50, 48, 50, 48, 48, 48]] (by simp)
      (fun f hf => ⟨48, by rw [List.mem_singleton.1 hf]; exact uniqueMode_scenarioA⟩)⟩

theorem count_tie (b L' : Nat) (hb1 : b ≠ 1) (hb2 : b ≠ 2) (h : L' ≠ 2) :
    List.count L' [b, 1, 2, 2] < List.count 2 [b, 1, 2, 2] := by
  have e2 : List.count 2 [b, 1, 2, 2] = 2 := by
    simp [List.count_cons, hb2]
  rw [e2]
  have h2 : ¬ (2 = L') := fun e => h e.symm
  by_cases hb : b = L'
  · subst hb
    have h1 : ¬ (1 = b) := fun e => hb1 e.symm
    simp [List.count_cons, h2, h1]
  · by_cases h1 : 1 = L'
    · subst h1
      simp [List.count_cons, hb]
    · simp [List.count_cons, hb, h1, h2]

theorem foldl_tie :
    (([4294967297, 1, 2, 2] : List Nat).map (fun n => n % UINT_MOD)).foldl tallyKey [] =
      [(1, 2), (2, 2)] := by
  decide

theorem lenpickMain_single (order : UMap Nat → List (Nat × Nat)) (f : List (List Char))
    (k : Nat) (h : filePeak order f = Except.ok k) :
    lenpickMain order [f] = Except.ok (LenpickOutput.minpeak k) := by
  simp [lenpickMain, collectPeaks, h, minElement, minScan]

/-- C15 as stated fails. In the file with classification-line lengths
`2 ^ 32 + 1`, 1, 2, 2 the length 2 is the unique most frequent length, but the
length `2 ^ 32 + 1` is tallied under the key 1, the tally is `1:2, 2:2`, and
`lenpick` prints 1 when the map is iterated in insertion order and 2 when it is
iterated in the reverse order. -/
theorem lenpick_order_dependent_counterexample :
    IterOrder (fun m : UMap Nat => m) ∧ IterOrder (fun m : UMap Nat => m.reverse) ∧
      (∀ L', L' ≠ 2 → classCount (fastqOfLengths [4294967297, 1, 2, 2]) L' <
        classCount (fastqOfLengths [4294967297, 1, 2, 2]) 2) ∧
      lendistOf (fastqOfLengths [4294967297, 1, 2, 2]) = [(1, 2), (2, 2)] ∧
      lenpickMain (fun m => m) [fastqOfLengths [4294967297, 1, 2, 2]] =
        Except.ok (LenpickOutput.minpeak 1) ∧
      lenpickMain (fun m => m.reverse) [fastqOfLengths [4294967297, 1, 2, 2]] =
        Except.ok (LenpickOutput.minpeak 2) := by
  have hd : lendistOf (fastqOfLengths [4294967297, 1, 2, 2]) = [(1, 2), (2, 2)] := by
    rw [lendistOf_fastq]; exact foldl_tie
  refine ⟨fun m => List.Perm.refl m, fun m => List.reverse_perm m, fun L' h => ?_, hd, ?_, ?_⟩
  · rw [classCount_fastq, classCount_fastq]
    exact count_tie 4294967297 L' (by decide) (by decide) h
  · exact lenpickMain_single _ _ 1 (filePeak_of_lendist _ _ _ 1 2 hd rfl)
  · exact lenpickMain_single _ _ 2 (filePeak_of_lendist _ _ _ 2 2 hd rfl)

theorem splitDelims_cons (c : Char) (cs : List Char) :
    splitDelims (c :: cs) =
      if isDelim c then [] :: splitDelims cs
      else
        match splitDelims cs with
        | [] => [[c]]
        | f :: fs => (c :: f) :: fs := rfl

theorem splitTabs_cons (c : Char) (cs : List Char) :
    splitTabs (c :: cs) =
      if c = '\t' then [] :: splitTabs cs
      else
        match splitTabs cs with
        | [] => [[c]]
        | f :: fs => (c :: f) :: fs := rfl

theorem splitDelims_eq (s : List Char) :
    splitDelims s =
      s.takeWhile (fun x => !isDelim x) ::
        (match s.dropWhile (fun x => !isDelim x) with
          | [] => []
          | _ :: r => splitDelims r) := by
  induction s with
  | nil => rfl
  | cons c cs ih =>
    rw [splitDelims_cons]
    by_cases h : isDelim c = true
    · simp [h, List.takeWhile, List.dropWhile]
    · have h2 : isDelim c = false := by simpa using h
      rw [if_neg h, ih]
      simp [h2, List.takeWhile, List.dropWhile]

theorem strtok_tokensOf (s : List Char) :
    (strtok s).1 = (tokensOf s).head? ∧ tokensOf (strtok s).2 = (tokensOf s).tail := by
  induction s with
  | nil => simp [strtok, tokensOf, splitDelims]
  | cons c cs ih =>
    by_cases h : isDelim c = true
    · have e1 : strtok (c :: cs) = strtok cs := by
        simp [strtok, List.dropWhile, h]
      have e2 : tokensOf (c :: cs) = tokensOf cs := by
        simp [tokensOf, splitDelims_cons, h]
      rw [e1, e2]
      exact ih
    · have h2 : isDelim c = false := by simpa using h
      have e1 : strtok (c :: cs) =
          (some (c :: cs.takeWhile (fun x => !isDelim x)),
            (cs.dropWhile (fun x => !isDelim x)).tail) := by
        simp [strtok, List.dropWhile, List.takeWhile, h2]
      have e2 : tokensOf (c :: cs) =
          (c :: cs.takeWhile (fun x => !isDelim x)) ::
            tokensOf (cs.dropWhile (fun x => !isDelim x)).tail := by
        unfold tokensOf
        rw [splitDelims_cons, if_neg h, splitDelims_eq cs]
        cases hd : cs.dropWhile (fun x => !isDelim x) with
        | nil => simp [splitDelims]
        | cons d r => simp
      rw [e1, e2]
      simp

theorem splitDelims_line (l : List Char) (hnl : ∀ c ∈ l, c ≠ '\n') :
    splitDelims (l ++ ['\n']) = splitTabs l ++ [[]] := by
  induction l with
  | nil => simp [splitDelims, splitTabs, isDelim]
  | cons c cs ih =>
    have hc : c ≠ '\n' := hnl c (List.mem_cons_self _ _)
    have ih2 := ih (fun x hx => hnl x (List.mem_cons_of_mem _ hx))
    rw [List.cons_append, splitDelims_cons, splitTabs_cons, ih2]
    by_cases ht : c = '\t'
    · simp [ht, isDelim]
    · have hd : isDelim c = false := by simp [isDelim, ht, hc]
      simp only [hd, ht, if_false, Bool.false_eq_true]
      cases hs : splitTabs cs with
      | nil => exact absurd hs (splitTabs_ne_nil cs)
      | cons g gs => rfl

theorem tokensOf_line (l : List Char) (hnl : ∀ c ∈ l, c ≠ '\n') :
    tokensOf (l ++ ['\n']) = nonEmptyFields l := by
  unfold tokensOf nonEmptyFields
  rw [splitDelims_line l hnl]
  simp

theorem atoi_error (s : List Char) (e : Fault) (h : atoi s = Except.error e) :
    e = Fault.atoiRange := by
  unfold atoi at h
  split at h
  · cases h
  · cases h; rfl

theorem processBuffer_tokens (l f0 f1 f2 : List Char) (rest : List (List Char))
    (tally : UMap (List Char)) (hnl : ∀ c ∈ l, c ≠ '\n') (hnul : ∀ c ∈ l, c ≠ NUL)
    (hat : l.head? ≠ some '@') (hf : nonEmptyFields l = f0 :: f1 :: f2 :: rest) :
    processBuffer (l ++ ['\n']) tally =
      match atoi f1 with
      | Except.error e => Except.error e
      | Except.ok bflag =>
        if bitAnd bflag 4 ≠ 0 then Except.ok tally else Except.ok (tallyKey tally f2) := by
  have hcs : cString (l ++ ['\n']) = l ++ ['\n'] := by
    apply cString_of_no_nul
    intro c hc
    rcases List.mem_append.1 hc with e | e
    · exact hnul c e
    · rw [List.mem_singleton.1 e]; decide
  have htok : tokensOf (l ++ ['\n']) = f0 :: f1 :: f2 :: rest := by
    rw [tokensOf_line l hnl, hf]
  obtain ⟨a1, a2⟩ := strtok_tokensOf (l ++ ['\n'])
  rw [htok] at a1 a2
  obtain ⟨b1, b2⟩ := strtok_tokensOf (strtok (l ++ ['\n'])).2
  rw [a2] at b1 b2
  obtain ⟨c1, _⟩ := strtok_tokensOf (strtok (strtok (l ++ ['\n'])).2).2
  rw [b2] at c1
  simp only [List.head?_cons, List.tail_cons] at a1 b1 c1
  have hhead : ¬ (l ++ ['\n']).head? = some '@' := by
    cases l with
    | nil => simp
    | cons c cs => simpa using hat
  unfold processBuffer
  rw [if_neg hhead, hcs]
  simp only [b1, c1]
  try rfl

theorem processBuffer_safe (l : List Char) (tally : UMap (List Char))
    (hnl : ∀ c ∈ l, c ≠ '\n') (hnul : ∀ c ∈ l, c ≠ NUL)
    (hfields : l.head? ≠ some '@' → 3 ≤ (nonEmptyFields l).length) :
    processBuffer (l ++ ['\n']) tally ≠ Except.error Fault.nullToken ∧
      ((l.head? ≠ some '@' → FlagInRange l = true) →
        ∃ t, processBuffer (l ++ ['\n']) tally = Except.ok t) := by
  by_cases hat : l.head? = some '@'
  · have hh : (l ++ ['\n']).head? = some '@' := by
      cases l with
      | nil => simp at hat
      | cons c cs => simpa using hat
    rw [processBuffer_header _ _ hh]
    exact ⟨by simp, fun _ => ⟨tally, rfl⟩⟩
  · have h3 := hfields hat
    match hf : nonEmptyFields l, h3 with
    | f0 :: f1 :: f2 :: rest, _ =>
      rw [processBuffer_tokens l f0 f1 f2 rest tally hnl hnul hat hf]
      constructor
      · cases ha : atoi f1 with
        | error e =>
          rw [atoi_error f1 e ha]
          simp
        | ok v =>
          by_cases hb : bitAnd v 4 ≠ 0
          · simp [hb]
          · simp [hb]
      · intro hr
        have hr2 := hr hat
        unfold FlagInRange at hr2
        rw [hf] at hr2
        simp only at hr2
        cases ha : atoi f1 with
        | error e => rw [ha] at hr2; simp at hr2
        | ok v =>
          by_cases hb : bitAnd v 4 ≠ 0
          · exact ⟨tally, by simp [hb]⟩
          · exact ⟨tallyKey tally f2, by simp [hb]⟩

theorem perLine_safe (lines : List (List Char)) (tally : UMap (List Char))
    (hnl : ∀ l ∈ lines, ∀ c ∈ l, c ≠ '\n') (hnul : ∀ l ∈ lines, ∀ c ∈ l, c ≠ NUL)
    (hfields : ∀ l ∈ lines, l.head? ≠ some '@' → 3 ≤ (nonEmptyFields l).length) :
    perLine lines tally ≠ Except.error Fault.nullToken ∧
      ((∀ l ∈ lines, l.head? ≠ some '@' → FlagInRange l = true) →
        ∃ t, perLine lines tally = Except.ok t) := by
  induction lines generalizing tally with
  | nil => exact ⟨by simp [perLine], fun _ => ⟨tally, rfl⟩⟩
  | cons l ls ih =>
    have hl := processBuffer_safe l tally (hnl l (List.mem_cons_self _ _))
      (hnul l (List.mem_cons_self _ _)) (hfields l (List.mem_cons_self _ _))
    have ihs := fun t => ih t (fun x hx => hnl x (List.mem_cons_of_mem _ hx))
      (fun x hx => hnul x (List.mem_cons_of_mem _ hx))
      (fun x hx => hfields x (List.mem_cons_of_mem _ hx))
    constructor
    · simp only [perLine]
      cases hp : processBuffer (l ++ ['\n']) tally with
      | error e =>
        intro hcon
        simp only [Except.error.injEq] at hcon
        exact hl.1 (by rw [hp, hcon])
      | ok t1 => exact (ihs t1).1
    · intro hr
      obtain ⟨t1, ht1⟩ := hl.2 (hr l (List.mem_cons_self _ _))
      obtain ⟨t2, ht2⟩ := (ihs t1).2 (fun x hx => hr x (List.mem_cons_of_mem _ hx))
      exact ⟨t2, by simp only [perLine, ht1, ht2]⟩

/-- C17 (amended). Safety of the `smr` record parser: for every input in which each
line is read whole into the buffer and holds no NUL, and each line not beginning
with `@` contains at least 3 non-empty fields separated by tabs, the scan reaches
the end of the file or stops in `atoi`, never on a null token: no `strtok`
result that is used is null.  When moreover the flag (the second non-empty field)
of every such line is an integer in the range of `int`, the scan processes every
line to completion and returns a tally. -/
theorem smr_parser_null_safe (lines : List (List Char))
    (hfit : ∀ l ∈ lines, FitsBuffer l = true) (hnul : ∀ l ∈ lines, ∀ c ∈ l, c ≠ NUL)
    (hfields : ∀ l ∈ lines, l.head? ≠ some '@' → 3 ≤ (nonEmptyFields l).length) :
    ∃ r, readTally (unlines lines) = some r ∧ r ≠ Except.error Fault.nullToken ∧
      ((∀ l ∈ lines, l.head? ≠ some '@' → FlagInRange l = true) → ∃ t, r = Except.ok t) := by
  have hs := perLine_safe lines [] (fun l hl => fits_no_newline l (hfit l hl)) hnul hfields
  exact ⟨perLine lines [], readTally_unlines lines hfit, hs.1, hs.2⟩

/-- Witness for C17: a header line, a record with an empty field between name and
flag, and a record with flag 16. -/
theorem smr_parser_null_safe_witness :
    (∀ l ∈ threeFieldLines, FitsBuffer l = true) ∧
      (∀ l ∈ threeFieldLines, ∀ c ∈ l, c ≠ NUL) ∧
      (∀ l ∈ threeFieldLines, l.head? ≠ some '@' → 3 ≤ (nonEmptyFields l).length) ∧
      (∀ l ∈ threeFieldLines, l.head? ≠ some '@' → FlagInRange l = true) ∧
      readTally (unlines threeFieldLines) =
        some (Except.ok [("chrA".toList, 1), ("chrB".toList, 1)]) ∧
      ∃ r, readTally (unlines threeFieldLines) = some r ∧
        r ≠ Except.error Fault.nullToken ∧
        ((∀ l ∈ threeFieldLines, l.head? ≠ some '@' → FlagInRange l = true) →
          ∃ t, r = Except.ok t) :=
  ⟨by decide, by decide, by decide, by decide, by decide,
    smr_parser_null_safe threeFieldLines (by decide) (by decide) (by decide)⟩

/-- C17 as stated fails. The line `a`, `0` followed by a NUL, `b`, `c`
(tab-separated) fits the buffer and has four non-empty fields, but the C string
in the buffer ends at the NUL, the third `strtok` call returns a null pointer and
the `std::string` constructor receives it.  The line `r`, `99999999999`, `chrA` has
three non-empty fields, but `atoi` is undefined on its flag, so the scan is not
carried to completion either. -/
theorem smr_parser_nul_counterexample :
    FitsBuffer ("a\t0".toList ++ NUL :: "\tb\tc".toList) = true ∧
      ("a\t0".toList ++ NUL :: "\tb\tc".toList).head? ≠ some '@' ∧
      nonEmptyFields ("a\t0".toList ++ NUL :: "\tb\tc".toList) =
        ["a".toList, ['0', NUL], "b".toList, "c".toList] ∧
      readTally (unlines ["a\t0".toList ++ NUL :: "\tb\tc".toList]) =
        some (Except.error Fault.nullToken) ∧
      FitsBuffer "r\t99999999999\tchrA".toList = true ∧
      nonEmptyFields "r\t99999999999\tchrA".toList =
        ["r".toList, "99999999999".toList, "chrA".toList] ∧
      readTally (unlines ["r\t99999999999\tchrA".toList]) =
        some (Except.error Fault.atoiRange) :=
  ⟨by decide, by decide, by decide, by decide, by decide, by decide, by decide⟩

theorem keyShape_iff (k : List Char) :
    KeyShape k = true ↔ k ≠ [] ∧ ∀ c ∈ k, c ≠ '\t' ∧ c ≠ '\n' ∧ c ≠ NUL := by
  cases k with
  | nil => simp [KeyShape]
  | cons a as =>
    simp only [KeyShape, List.isEmpty_cons, Bool.not_false, Bool.true_and, List.all_eq_true,
      Bool.and_eq_true, decide_eq_true_eq, ne_eq, not_false_eq_true, true_and]
    constructor
    · intro h
      refine ⟨by simp, fun c hc => ?_⟩
      have := h c hc
      tauto
    · intro h c hc
      have := h.2 c hc
      tauto

theorem mem_cString (b : List Char) (c : Char) (h : c ∈ cString b) : c ≠ NUL ∧ c ∈ b := by
  constructor
  · have := List.mem_takeWhile_imp h
    simpa using this
  · exact (List.takeWhile_sublist _).subset h

theorem strtok_rest_subset (s : List Char) : ∀ c ∈ (strtok s).2, c ∈ s := by
  induction s with
  | nil => simp [strtok]
  | cons c cs ih =>
    by_cases hd : isDelim c = true
    · have e1 : strtok (c :: cs) = strtok cs := by
        simp [strtok, List.dropWhile, hd]
      rw [e1]
      exact fun x hx => List.mem_cons_of_mem _ (ih x hx)
    · have h2 : isDelim c = false := by simpa using hd
      have e1 : strtok (c :: cs) =
          (some (c :: cs.takeWhile (fun x => !isDelim x)),
            (cs.dropWhile (fun x => !isDelim x)).tail) := by
        simp [strtok, List.dropWhile, List.takeWhile, h2]
      rw [e1]
      intro x hx
      exact List.mem_cons_of_mem _
        ((List.dropWhile_sublist _).subset (List.mem_of_mem_tail hx))

theorem strtok_shape (s tok : List Char) (h : (strtok s).1 = some tok) :
    tok ≠ [] ∧ ∀ c ∈ tok, isDelim c = false ∧ c ∈ s := by
  induction s with
  | nil => simp [strtok] at h
  | cons c cs ih =>
    by_cases hd : isDelim c = true
    · have e1 : strtok (c :: cs) = strtok cs := by
        simp [strtok, List.dropWhile, hd]
      rw [e1] at h
      obtain ⟨h1, h2⟩ := ih h
      exact ⟨h1, fun x hx => ⟨(h2 x hx).1, List.mem_cons_of_mem _ (h2 x hx).2⟩⟩
    · have h2 : isDelim c = false := by simpa using hd
      have e1 : strtok (c :: cs) =
          (some (c :: cs.takeWhile (fun x => !isDelim x)),
            (cs.dropWhile (fun x => !isDelim x)).tail) := by
        simp [strtok, List.dropWhile, List.takeWhile, h2]
      rw [e1] at h
      simp only [Option.some.injEq] at h
      subst h
      refine ⟨by simp, ?_⟩
      intro x hx
      rcases List.mem_cons.1 hx with e | e
      · rw [e]; exact ⟨h2, List.mem_cons_self _ _⟩
      · have hp := List.mem_takeWhile_imp e
        exact ⟨by simpa using hp,
          List.mem_cons_of_mem _ ((List.takeWhile_sublist _).subset e)⟩

theorem processBuffer_step_shape (buffer : List Char) (tally tally' : UMap (List Char))
    (h : processBuffer buffer tally = Except.ok tally') :
    tally' = tally ∨ ∃ k, KeyShape k = true ∧ tally' = tallyKey tally k := by
  unfold processBuffer at h
  split at h
  · left; cases h; rfl
  · split at h
    · cases h
    · split at h
      · cases h
      · split at h
        · left; cases h; rfl
        · split at h
          · cases h
          · rename_i molid hm
            right
            cases h
            refine ⟨molid, ?_, rfl⟩
            obtain ⟨n1, n2⟩ := strtok_shape _ molid hm
            rw [keyShape_iff]
            refine ⟨n1, ?_⟩
            intro c hc
            obtain ⟨d1, d2⟩ := n2 c hc
            have m2 := (mem_cString buffer c
              (strtok_rest_subset _ c (strtok_rest_subset _ c d2))).1
            simp only [isDelim, Bool.or_eq_false_iff, decide_eq_false_iff_not] at d1
            exact ⟨d1.1, d1.2, m2⟩

theorem mem_tallyKey_key (t : UMap (List Char)) (k : List Char) (e : List Char × Nat)
    (he : e ∈ tallyKey t k) : e.1 = k ∨ e.1 ∈ t.map Prod.fst := by
  have hk : e.1 ∈ (tallyKey t k).map Prod.fst := List.mem_map_of_mem Prod.fst he
  unfold tallyKey at hk
  cases hf : UMap.find t k with
  | none =>
    simp only [hf, UMap.emplace, List.map_append, List.map_cons, List.map_nil,
      List.mem_append, List.mem_singleton] at hk
    tauto
  | some v =>
    simp only [hf, keys_incr] at hk
    exact Or.inr hk

theorem readLoop_keys (fuel : Nat) (stream : List Char) (t t' : UMap (List Char))
    (ht : ∀ e ∈ t, KeyShape e.1 = true)
    (h : readLoop fuel stream t = some (Except.ok t')) : ∀ e ∈ t', KeyShape e.1 = true := by
  induction fuel generalizing stream t with
  | zero => simp [readLoop] at h
  | succ fuel ih =>
    rw [readLoop_succ] at h
    cases hf : fgets MAX_LINE_LENGTH stream with
    | none =>
      rw [hf] at h
      simp only [Option.some.injEq, Except.ok.injEq] at h
      rw [← h]; exact ht
    | some br =>
      obtain ⟨buffer, rest⟩ := br
      rw [hf] at h
      simp only at h
      cases hp : processBuffer buffer t with
      | error e => rw [hp] at h; simp at h
      | ok t1 =>
        rw [hp] at h
        simp only at h
        apply ih rest t1 _ h
        rcases processBuffer_step_shape buffer t t1 hp with e1 | ⟨k, hk, e1⟩
        · rw [e1]; exact ht
        · intro e he
          rw [e1] at he
          rcases mem_tallyKey_key t k e he with e2 | e2
          · rw [e2]; exact hk
          · obtain ⟨x, hx, hxe⟩ := List.mem_map.1 e2
            rw [← hxe]; exact ht x hx

theorem readTally_keys (stream : List Char) (t : UMap (List Char))
    (h : readTally stream = some (Except.ok t)) : ∀ e ∈ t, KeyShape e.1 = true :=
  readLoop_keys _ stream [] t (by simp) h

theorem digitChar_plain (m : Nat) (h : m < 10) :
    Nat.digitChar m ≠ '\t' ∧ Nat.digitChar m ≠ '\n' := by
  interval_cases m <;> exact ⟨by decide, by decide⟩

theorem toDigitsCore_plain (fuel n : Nat) (ds : List Char)
    (hds : ∀ c ∈ ds, c ≠ '\t' ∧ c ≠ '\n') :
    ∀ c ∈ Nat.toDigitsCore 10 fuel n ds, c ≠ '\t' ∧ c ≠ '\n' := by
  induction fuel generalizing n ds with
  | zero => simpa [Nat.toDigitsCore] using hds
  | succ fuel ih =>
    have hcons : ∀ c ∈ Nat.digitChar (n % 10) :: ds, c ≠ '\t' ∧ c ≠ '\n' := by
      intro c hc
      rcases List.mem_cons.1 hc with e | e
      · rw [e]; exact digitChar_plain _ (Nat.mod_lt _ (by decide))
      · exact hds c e
    simp only [Nat.toDigitsCore]
    split
    · exact hcons
    · exact ih _ _ hcons

theorem formatUnsigned_plain (n : Nat) : ∀ c ∈ formatUnsigned n, c ≠ '\t' ∧ c ≠ '\n' :=
  toDigitsCore_plain _ _ [] (by simp)

theorem splitTabs_no_tab (a : List Char) (h : ∀ c ∈ a, c ≠ '\t') : splitTabs a = [a] := by
  induction a with
  | nil => rfl
  | cons c cs ih =>
    have hc := h c (List.mem_cons_self _ _)
    have := ih (fun x hx => h x (List.mem_cons_of_mem _ hx))
    simp [splitTabs, hc, this]

theorem splitTabs_append_tab (a b : List Char) (h : ∀ c ∈ a, c ≠ '\t') :
    splitTabs (a ++ '\t' :: b) = a :: splitTabs b := by
  induction a with
  | nil => simp [splitTabs]
  | cons c cs ih =>
    have hc := h c (List.mem_cons_self _ _)
    have := ih (fun x hx => h x (List.mem_cons_of_mem _ hx))
    simp [splitTabs, hc, this]

theorem splitTabs_joinWith (fs : List (List Char)) (hne : fs ≠ [])
    (h : ∀ f ∈ fs, ∀ c ∈ f, c ≠ '\t') : splitTabs (joinWith '\t' fs) = fs := by
  induction fs with
  | nil => exact absurd rfl hne
  | cons f gs ih =>
    cases gs with
    | nil =>
      simp only [joinWith]
      exact splitTabs_no_tab f (h f (List.mem_cons_self _ _))
    | cons g rest =>
      simp only [joinWith]
      rw [splitTabs_append_tab _ _ (h f (List.mem_cons_self _ _)),
        ih (by simp) (fun x hx => h x (List.mem_cons_of_mem _ hx))]

theorem mem_joinWith (delim : Char) (fs : List (List Char)) (c : Char)
    (hc : c ∈ joinWith delim fs) : c = delim ∨ ∃ f ∈ fs, c ∈ f := by
  induction fs with
  | nil => simp [joinWith] at hc
  | cons f gs ih =>
    cases gs with
    | nil =>
      simp only [joinWith] at hc
      exact Or.inr ⟨f, List.mem_cons_self _ _, hc⟩
    | cons g rest =>
      simp only [joinWith, List.mem_append, List.mem_cons] at hc
      rcases hc with h1 | h1 | h1
      · exact Or.inr ⟨f, List.mem_cons_self _ _, h1⟩
      · exact Or.inl h1
      · rcases ih h1 with h2 | ⟨x, hx, hcx⟩
        · exact Or.inl h2
        · exact Or.inr ⟨x, List.mem_cons_of_mem _ hx, hcx⟩

theorem linesOf_single (body : List Char) (h : ∀ c ∈ body, c ≠ '\n') :
    linesOf (body ++ ['\n']) = [body] := by
  induction body with
  | nil => simp [linesOf]
  | cons c cs ih =>
    have hc := h c (List.mem_cons_self _ _)
    have := ih (fun x hx => h x (List.mem_cons_of_mem _ hx))
    rw [List.cons_append, linesOf_cons, if_neg hc, this]

theorem printRow_body (delim : Char) (tallies : List (UMap (List Char))) (molid : List Char)
    (h : ∀ c ∈ molid, c ≠ NUL) :
    printRow delim tallies molid = rowBody delim tallies molid ++ ['\n'] := by
  rw [printRow_eq delim tallies molid h]
  simp [tableRow, rowBody, List.map_map, Function.comp_def]

theorem rowBody_tab (tallies : List (UMap (List Char))) (key : List Char)
    (hne : tallies ≠ []) (hk : KeyShape key = true) :
    (∀ c ∈ rowBody '\t' tallies key, c ≠ '\n') ∧
      splitTabs (rowBody '\t' tallies key) =
        key :: tallies.map (fun t => formatUnsigned (countOrZero key t)) := by
  obtain ⟨_, hshape⟩ := (keyShape_iff key).1 hk
  constructor
  · intro c hc
    simp only [rowBody, List.mem_append, List.mem_singleton] at hc
    rcases hc with (h1 | h1) | h1
    · exact (hshape c h1).2.1
    · rw [h1]; decide
    · rcases mem_joinWith _ _ _ h1 with h2 | ⟨f, hf, hcf⟩
      · rw [h2]; decide
      · obtain ⟨t, _, ht⟩ := List.mem_map.1 hf
        rw [← ht] at hcf
        exact (formatUnsigned_plain _ c hcf).2
  · have e : rowBody '\t' tallies key =
        key ++ '\t' :: joinWith '\t'
          (tallies.map (fun t => formatUnsigned (countOrZero key t))) := by
      simp [rowBody]
    rw [e, splitTabs_append_tab _ _ (fun c hc => (hshape c hc).1),
      splitTabs_joinWith _ (by simpa using hne)]
    intro f hf c hc
    obtain ⟨t, _, ht⟩ := List.mem_map.1 hf
    rw [← ht] at hc
    exact (formatUnsigned_plain _ c hc).1

theorem mem_linesOf_print (mapOrder : UMap (List Char) → List (List Char × Nat))
    (setOrder : List (List Char) → List (List Char)) (hmap : IterOrder mapOrder)
    (hset : ∀ s, (setOrder s).Perm s) (tallies : List (UMap (List Char)))
    (hkeys : ∀ t ∈ tallies, ∀ e ∈ t, KeyShape e.1 = true) (line : List Char)
    (hline : line ∈ linesOf (print mapOrder setOrder tallies '\t')) :
    ∃ k, (∃ t ∈ tallies, UMap.find t k ≠ none) ∧ KeyShape k = true ∧
      splitTabs line = k :: tallies.map (fun t => formatUnsigned (countOrZero k t)) := by
  rw [linesOf_print, List.mem_flatMap] at hline
  obtain ⟨k, hk, hl⟩ := hline
  have hmem := (mem_molids_iff mapOrder hmap tallies k).1 ((hset _).mem_iff.1 hk)
  obtain ⟨t, ht, hf⟩ := hmem
  have hshape : KeyShape k = true := by
    obtain ⟨e, he, hke⟩ := List.mem_map.1 ((mem_keys_iff_find t k).2 hf)
    rw [← hke]; exact hkeys t ht e he
  have hnul : ∀ c ∈ k, c ≠ NUL := fun c hc => (((keyShape_iff k).1 hshape).2 c hc).2.2
  have hne : tallies ≠ [] := List.ne_nil_of_mem ht
  obtain ⟨b1, b2⟩ := rowBody_tab tallies k hne hshape
  rw [printRow_body '\t' tallies k hnul, linesOf_single _ b1, List.mem_singleton] at hl
  exact ⟨k, ⟨t, ht, hf⟩, hshape, by rw [hl, b2]⟩

/-- C18. Key shape in `smr`: every key stored in a `ReadTally` that the constructor
returns is a non-empty string containing no tab and no newline; and when the
tallies of `n` input files are printed with the tab character as delimiter, every
output line splits on tab into exactly `n + 1` fields, the first of which is a
key of some tally. -/
theorem smr_key_shape (mapOrder : UMap (List Char) → List (List Char × Nat))
    (setOrder : List (List Char) → List (List Char)) (hmap : IterOrder mapOrder)
    (hset : ∀ s, (setOrder s).Perm s) (files : List (List Char))
    (tallies : List (UMap (List Char)))
    (hread : List.Forall₂ (fun f t => readTally f = some (Except.ok t)) files tallies) :
    (∀ t ∈ tallies, ∀ e ∈ t, e.1 ≠ [] ∧ ∀ c ∈ e.1, c ≠ '\t' ∧ c ≠ '\n') ∧
      ∀ line ∈ linesOf (print mapOrder setOrder tallies '\t'),
        (splitTabs line).length = files.length + 1 ∧
        ∃ k, (∃ t ∈ tallies, UMap.find t k ≠ none) ∧ (splitTabs line).head? = some k := by
  have hkeys : ∀ t ∈ tallies, ∀ e ∈ t, KeyShape e.1 = true := by
    intro t ht
    obtain ⟨f, _, hf⟩ := forall2_mem_right hread t ht
    exact readTally_keys f t hf
  constructor
  · intro t ht e he
    obtain ⟨h1, h2⟩ := (keyShape_iff e.1).1 (hkeys t ht e he)
    exact ⟨h1, fun c hc => ⟨(h2 c hc).1, (h2 c hc).2.1⟩⟩
  · intro line hline
    obtain ⟨k, hk, _, hs⟩ := mem_linesOf_print mapOrder setOrder hmap hset tallies hkeys
      line hline
    rw [hs]
    exact ⟨by simp [hread.length_eq], k, hk, rfl⟩

/-- Witness for C18: two alignment files, their tallies, and the table written with
tabs. -/
theorem smr_key_shape_witness :
    IterOrder (fun m : UMap (List Char) => m) ∧
      (∀ s : List (List Char), ((fun s => s) s).Perm s) ∧
      List.Forall₂ (fun f t => readTally f = some (Except.ok t)) twoSamFiles twoSamTallies ∧
      print (fun m => m) (fun s => s) twoSamTallies '\t' =
        "chrA\t2\t1\nchrB\t0\t1\n".toList ∧
      ((∀ t ∈ twoSamTallies, ∀ e ∈ t, e.1 ≠ [] ∧ ∀ c ∈ e.1, c ≠ '\t' ∧ c ≠ '\n') ∧
        ∀ line ∈ linesOf (print (fun m => m) (fun s => s) twoSamTallies '\t'),
          (splitTabs line).length = twoSamFiles.length + 1 ∧
          ∃ k, (∃ t ∈ twoSamTallies, UMap.find t k ≠ none) ∧
            (splitTabs line).head? = some k) :=
  ⟨fun m => List.Perm.refl m, fun s => List.Perm.refl s,
    List.Forall₂.cons (by decide) (List.Forall₂.cons (by decide) List.Forall₂.nil),
    by decide,
    smr_key_shape (fun m => m) (fun s => s) (fun m => List.Perm.refl m)
      (fun s => List.Perm.refl s) twoSamFiles twoSamTallies
      (List.Forall₂.cons (by decide) (List.Forall₂.cons (by decide) List.Forall₂.nil))⟩

end TkRnaseq
